import Mathlib

/-!
# Verification of the icebox wallet core

Shallow embedding of the ICBOC 3D wallet engine
(`src/lib/wallet/mod.rs`, `src/lib/wallet/serialize.rs`) and proofs about
its serialization codec and wallet operations.

Bytes are modelled as `Nat`, byte streams as `List Nat`.  Decoders are
state-passing functions over a `DecState` that carries the remaining
input together with a trace of buffer allocations, so that the order of
"allocate payload buffer" versus "check length bound" in the Rust
decoders is observable in the model.  Encoders return the produced byte
list, or an error for a bound violation, mirroring `write_to`.
-/

namespace Icebox

/-- Error category for the codec, mirroring the `io::Error` values produced
in `serialize.rs`: `eof` for a failed `read_exact`, `bound observed max`
for a length-bound violation (the Rust error message names the observed
length and the maximum), `badUtf8` for a `from_utf8` failure, `badParse`
for a descriptor `from_str` failure, `badKey` for a public-key
`from_slice` failure. -/
inductive DecErr where
  | eof : DecErr
  | bound : Nat → Nat → DecErr
  | badUtf8 : DecErr
  | badParse : DecErr
  | badKey : DecErr
  deriving DecidableEq

/-- Decoder state: the remaining input bytes and the trace of payload-buffer
allocation sizes (`Vec::with_capacity(n)` / `vec![0; n]` each log one `n`),
in the order the allocations are performed. -/
structure DecState where
  input : List Nat
  allocs : List Nat
  deriving DecidableEq

/-- A decoder: mirrors `fn read_from<R: Read>(r: R) -> io::Result<Self>`,
with the reader state passed explicitly. -/
def Dec (α : Type) : Type := DecState → Except DecErr α × DecState

instance {ε α : Type} [DecidableEq ε] [DecidableEq α] :
    DecidableEq (Except ε α) := fun x y =>
  match x, y with
  | Except.ok a, Except.ok b =>
    if h : a = b then Decidable.isTrue (by rw [h])
    else Decidable.isFalse (by simp [h])
  | Except.error a, Except.error b =>
    if h : a = b then Decidable.isTrue (by rw [h])
    else Decidable.isFalse (by simp [h])
  | Except.ok _, Except.error _ => Decidable.isFalse (by simp)
  | Except.error _, Except.ok _ => Decidable.isFalse (by simp)

-- Bound constants from `serialize.rs`.

/-- `MAX_SCRIPTPUBKEY_SIZE`: largest size of a script we will serialize. -/
def MAX_SCRIPTPUBKEY_SIZE : Nat := 50
/-- `MAX_VEC_ELEMS`: largest number of elements in any vector we will serialize. -/
def MAX_VEC_ELEMS : Nat := 10000
/-- `MAX_STRING_LEN`: largest size of a user-provided note string. -/
def MAX_STRING_LEN : Nat := 100000
/-- `MAX_DESCRIPTOR_LEN`: largest size of an individual descriptor string (64 * 1024). -/
def MAX_DESCRIPTOR_LEN : Nat := 65536

/-- `Read::read_exact` into a buffer of `n` bytes: succeeds returning exactly
`n` bytes if available, otherwise fails (eof). -/
def readExact (n : Nat) : Dec (List Nat) := fun s =>
  if n ≤ s.input.length then
    (Except.ok (s.input.take n), { s with input := s.input.drop n })
  else (Except.error DecErr.eof, s)

/-- `<u8 as Serialize>::read_from`: read one byte. -/
def readU8 : Dec Nat := fun s =>
  match s.input with
  | [] => (Except.error DecErr.eof, s)
  | b :: rest => (Except.ok b, { s with input := rest })

/-- `<u8 as Serialize>::write_to`: the byte itself. -/
def writeU8 (b : Nat) : List Nat := [b]

/-- `<u32 as Serialize>::write_to`: four bytes, little endian; the `as u8`
casts are the `% 256`s. -/
def writeU32 (n : Nat) : List Nat :=
  [n % 256, n / 256 % 256, n / 65536 % 256, n / 16777216 % 256]

theorem writeU32_length (n : Nat) : (writeU32 n).length = 4 := rfl

/-- `<u32 as Serialize>::read_from`: read four bytes and reassemble little
endian. -/
def readU32 : Dec Nat := fun s =>
  match s.input with
  | b0 :: b1 :: b2 :: b3 :: rest =>
      (Except.ok (b0 + b1 * 256 + b2 * 65536 + b3 * 16777216),
       { s with input := rest })
  | _ => (Except.error DecErr.eof, s)

/-- `<u64 as Serialize>::write_to`: two 32-bit halves, low half first;
`*self as u32` truncates, `(*self >> 32) as u32` is the shifted half. -/
def writeU64 (n : Nat) : List Nat :=
  writeU32 n ++ writeU32 (n / 4294967296)

/-- `<u64 as Serialize>::read_from`: two 32-bit halves, low half first. -/
def readU64 : Dec Nat := fun s =>
  match readU32 s with
  | (Except.ok lo, s1) =>
      match readU32 s1 with
      | (Except.ok hi, s2) => (Except.ok (lo + hi * 4294967296), s2)
      | (Except.error e, s2) => (Except.error e, s2)
  | (Except.error e, s1) => (Except.error e, s1)

-- u32 round trip

theorem writeU32_readU32 (n : Nat) (h : n < 4294967296) (rest : List Nat)
    (tr : List Nat) :
    readU32 ⟨writeU32 n ++ rest, tr⟩ = (Except.ok n, ⟨rest, tr⟩) := by
  simp only [writeU32, readU32, List.cons_append, List.nil_append]
  congr 1
  congr 1
  omega

theorem writeU64_readU64 (n : Nat) (h : n < 18446744073709551616)
    (rest : List Nat) (tr : List Nat) :
    readU64 ⟨writeU64 n ++ rest, tr⟩ = (Except.ok n, ⟨rest, tr⟩) := by
  have h1 : n % 4294967296 < 4294967296 := Nat.mod_lt _ (by norm_num)
  have h2 : n / 4294967296 < 4294967296 := by omega
  have hw : writeU32 n = writeU32 (n % 4294967296) := by
    simp only [writeU32]
    congr 1
    · omega
    congr 1
    · omega
    congr 1
    · omega
    congr 1
    omega
  simp only [readU64, writeU64, List.append_assoc, hw]
  rw [writeU32_readU32 _ h1]
  dsimp only
  rw [writeU32_readU32 _ h2]
  dsimp only
  congr 1
  congr 1
  omega

/-- `rd` decodes the bytes `bs` back to `a`, consuming exactly `bs`,
whatever follows on the stream and whatever was allocated before. -/
def ReadsBack (rd : Dec α) (bs : List Nat) (a : α) : Prop :=
  ∀ rest tr, ∃ tr2, rd ⟨bs ++ rest, tr⟩ = (Except.ok a, ⟨rest, tr2⟩)

theorem readsBack_u32 (n : Nat) (h : n < 4294967296) :
    ReadsBack readU32 (writeU32 n) n := by
  intro rest tr
  exact ⟨tr, writeU32_readU32 n h rest tr⟩

theorem readsBack_u64 (n : Nat) (h : n < 18446744073709551616) :
    ReadsBack readU64 (writeU64 n) n := by
  intro rest tr
  exact ⟨tr, writeU64_readU64 n h rest tr⟩

theorem readsBack_exact (l : List Nat) : ReadsBack (readExact l.length) l l := by
  intro rest tr
  refine ⟨tr, ?_⟩
  simp [readExact, List.take_append, List.drop_append]

-- Sequence of element writes, aborting on the first failing element
-- (the loop `for t in self { t.write_to(&mut w)?; }`).

/-- Concatenated encodings of the elements of a list; the first failing
element write aborts the whole write. -/
def writeElems (wT : α → Except DecErr (List Nat)) :
    List α → Except DecErr (List Nat)
  | [] => Except.ok []
  | a :: l =>
    match wT a, writeElems wT l with
    | Except.ok b, Except.ok bs => Except.ok (b ++ bs)
    | Except.error e, _ => Except.error e
    | Except.ok _, Except.error e => Except.error e

/-- The element-reading loop of `<Vec<T> as Serialize>::read_from`:
`for _ in 0..len32 { ret.push(Serialize::read_from(&mut r)?); }`. -/
def readList (rT : Dec α) : Nat → Dec (List α)
  | 0 => fun s => (Except.ok [], s)
  | n + 1 => fun s =>
    match rT s with
    | (Except.ok a, s1) =>
      match readList rT n s1 with
      | (Except.ok l, s2) => (Except.ok (a :: l), s2)
      | (Except.error e, s2) => (Except.error e, s2)
    | (Except.error e, s1) => (Except.error e, s1)

/-- `<Vec<T> as Serialize>::write_to`: length bound check, then the
32-bit length, then the elements. -/
def writeVec (wT : α → Except DecErr (List Nat)) (l : List α) :
    Except DecErr (List Nat) :=
  if l.length > MAX_VEC_ELEMS then
    Except.error (DecErr.bound l.length MAX_VEC_ELEMS)
  else
    match writeElems wT l with
    | Except.ok bs => Except.ok (writeU32 l.length ++ bs)
    | Except.error e => Except.error e

/-- `<Vec<T> as Serialize>::read_from`: read the 32-bit length, then
`Vec::with_capacity(len32 as usize)` (logged as an allocation), THEN the
bound check, then the element loop — the allocation precedes the check,
exactly as in the source. -/
def readVec (rT : Dec α) : Dec (List α) := fun s =>
  match readU32 s with
  | (Except.ok len, s1) =>
    let s2 : DecState := { s1 with allocs := s1.allocs ++ [len] }
    if len > MAX_VEC_ELEMS then
      (Except.error (DecErr.bound len MAX_VEC_ELEMS), s2)
    else readList rT len s2
  | (Except.error e, s1) => (Except.error e, s1)

theorem readsBack_list (rT : Dec α) (wT : α → Except DecErr (List Nat))
    (l : List α) (bs : List Nat)
    (hw : writeElems wT l = Except.ok bs)
    (helem : ∀ a ∈ l, ∀ ba, wT a = Except.ok ba → ReadsBack rT ba a) :
    ReadsBack (readList rT l.length) bs l := by
  induction l generalizing bs with
  | nil =>
    simp only [writeElems, Except.ok.injEq] at hw
    subst hw
    intro rest tr
    exact ⟨tr, rfl⟩
  | cons a l ih =>
    simp only [writeElems] at hw
    cases ha : wT a with
    | error e => rw [ha] at hw; exact absurd hw (by simp)
    | ok ba =>
      cases hl : writeElems wT l with
      | error e => rw [ha, hl] at hw; exact absurd hw (by simp)
      | ok bl =>
        rw [ha, hl] at hw
        simp only [Except.ok.injEq] at hw
        subst hw
        intro rest tr
        obtain ⟨tr1, h1⟩ := helem a (by simp) ba ha (bl ++ rest) tr
        obtain ⟨tr2, h2⟩ :=
          ih bl hl (fun x hx => helem x (by simp [hx])) rest tr1
        refine ⟨tr2, ?_⟩
        simp only [List.length_cons, readList, List.append_assoc, h1, h2]

theorem readsBack_vec (rT : Dec α) (wT : α → Except DecErr (List Nat))
    (l : List α) (bs : List Nat)
    (hw : writeVec wT l = Except.ok bs)
    (helem : ∀ a ∈ l, ∀ ba, wT a = Except.ok ba → ReadsBack rT ba a) :
    ReadsBack (readVec rT) bs l := by
  simp only [writeVec] at hw
  by_cases hlen : l.length > MAX_VEC_ELEMS
  · simp [hlen] at hw
  · simp only [hlen, if_false] at hw
    cases he : writeElems wT l with
    | error e => rw [he] at hw; exact absurd hw (by simp)
    | ok body =>
      rw [he] at hw
      simp only [Except.ok.injEq] at hw
      subst hw
      intro rest tr
      have hlen32 : l.length < 4294967296 := by
        simp only [MAX_VEC_ELEMS, gt_iff_lt, not_lt] at hlen
        omega
      obtain ⟨tr2, hrd⟩ :=
        readsBack_list rT wT l body he helem rest (tr ++ [l.length])
      refine ⟨tr2, ?_⟩
      simp only [readVec, List.append_assoc, writeU32_readU32 _ hlen32]
      simp only [gt_iff_lt, hlen, if_false] at hrd ⊢
      simpa using hrd

/-- A UTF-8 continuation byte. -/
def utf8Cont (b : Nat) : Bool := 128 ≤ b && b < 192

/-- Consume one well-formed UTF-8 scalar from the head of the stream,
returning the remainder; `none` if the head is not a well-formed
sequence.  ASCII, and two-, three- and four-byte sequences with the
usual overlong, surrogate and range exclusions. -/
def utf8Step : List Nat → Option (List Nat)
  | [] => none
  | b :: rest =>
    if b < 128 then some rest
    else if b < 194 then none
    else if b < 224 then
      match rest with
      | c1 :: rest1 => if utf8Cont c1 then some rest1 else none
      | [] => none
    else if b < 240 then
      match rest with
      | c1 :: c2 :: rest2 =>
        if ((if b = 224 then decide (160 ≤ c1 ∧ c1 < 192)
             else if b = 237 then decide (128 ≤ c1 ∧ c1 < 160)
             else utf8Cont c1) && utf8Cont c2) then some rest2 else none
      | _ => none
    else if b < 245 then
      match rest with
      | c1 :: c2 :: c3 :: rest3 =>
        if ((if b = 240 then decide (144 ≤ c1 ∧ c1 < 192)
             else if b = 244 then decide (128 ≤ c1 ∧ c1 < 144)
             else utf8Cont c1) && utf8Cont c2 && utf8Cont c3) then some rest3
        else none
      | _ => none
    else none

/-- Fuelled driver for the UTF-8 validity check; `fuel` at least the
length of the list makes it total. -/
def utf8ValidFuel : Nat → List Nat → Bool
  | _, [] => true
  | 0, _ :: _ => false
  | fuel + 1, b :: rest =>
    match utf8Step (b :: rest) with
    | some r => utf8ValidFuel fuel r
    | none => false

/-- Executable UTF-8 validity check, standing for `String::from_utf8`'s
validation (a well-formedness test on the byte stream; the std
implementation is external to this repository). -/
def utf8Valid (l : List Nat) : Bool := utf8ValidFuel l.length l

theorem utf8Step_length (l r : List Nat) (h : utf8Step l = some r) :
    r.length < l.length := by
  cases l with
  | nil => simp [utf8Step] at h
  | cons b rest =>
    simp only [utf8Step] at h
    repeat' split at h
    all_goals simp_all
    all_goals omega

theorem utf8ValidFuel_congr (fuel1 fuel2 : Nat) (l : List Nat)
    (h1 : l.length ≤ fuel1) (h2 : l.length ≤ fuel2) :
    utf8ValidFuel fuel1 l = utf8ValidFuel fuel2 l := by
  induction fuel1 generalizing fuel2 l with
  | zero =>
    cases l with
    | nil => cases fuel2 <;> rfl
    | cons b rest => simp at h1
  | succ f ih =>
    cases l with
    | nil => cases fuel2 <;> rfl
    | cons b rest =>
      cases fuel2 with
      | zero => simp at h2
      | succ f2 =>
        simp only [utf8ValidFuel]
        cases hs : utf8Step (b :: rest) with
        | none => rfl
        | some r =>
          have hlen := utf8Step_length _ _ hs
          simp only [List.length_cons] at h1 h2 hlen
          exact ih f2 r (by omega) (by omega)

theorem utf8Valid_ascii (l : List Nat) (h : ∀ b ∈ l, b < 128) :
    utf8Valid l = true := by
  induction l with
  | nil => rfl
  | cons b rest ih =>
    have hb : b < 128 := h b (by simp)
    have hstep : utf8Step (b :: rest) = some rest := by
      simp [utf8Step, hb]
    simp only [utf8Valid, List.length_cons, utf8ValidFuel, hstep]
    simpa [utf8Valid] using ih (fun x hx => h x (by simp [hx]))

/-- `<String as Serialize>::write_to` (a Rust `String` is modelled by its
UTF-8 byte list): length bound check, then the 32-bit length, then the
bytes. -/
def writeString (str : List Nat) : Except DecErr (List Nat) :=
  if str.length > MAX_STRING_LEN then
    Except.error (DecErr.bound str.length MAX_STRING_LEN)
  else Except.ok (writeU32 str.length ++ str)

/-- `<String as Serialize>::read_from`: read the 32-bit length, then
`vec![0; len32 as usize]` (logged as an allocation), THEN the bound
check, then `read_exact`, then the UTF-8 validation — the allocation
precedes the check, exactly as in the source. -/
def readString : Dec (List Nat) := fun s =>
  match readU32 s with
  | (Except.ok len, s1) =>
    let s2 : DecState := { s1 with allocs := s1.allocs ++ [len] }
    if len > MAX_STRING_LEN then
      (Except.error (DecErr.bound len MAX_STRING_LEN), s2)
    else
      match readExact len s2 with
      | (Except.ok bytes, s3) =>
        if utf8Valid bytes then (Except.ok bytes, s3)
        else (Except.error DecErr.badUtf8, s3)
      | (Except.error e, s3) => (Except.error e, s3)
  | (Except.error e, s1) => (Except.error e, s1)

/-- `<bitcoin::Script as Serialize>::write_to` (a script is its byte
list): length bound check, then the 32-bit length, then the bytes. -/
def writeScript (sc : List Nat) : Except DecErr (List Nat) :=
  if sc.length > MAX_SCRIPTPUBKEY_SIZE then
    Except.error (DecErr.bound sc.length MAX_SCRIPTPUBKEY_SIZE)
  else Except.ok (writeU32 sc.length ++ sc)

/-- `<bitcoin::Script as Serialize>::read_from`: read the 32-bit length,
then `vec![0; len32 as usize]` (logged as an allocation), THEN the bound
check, then `read_exact` — the allocation precedes the check, exactly as
in the source. -/
def readScript : Dec (List Nat) := fun s =>
  match readU32 s with
  | (Except.ok len, s1) =>
    let s2 : DecState := { s1 with allocs := s1.allocs ++ [len] }
    if len > MAX_SCRIPTPUBKEY_SIZE then
      (Except.error (DecErr.bound len MAX_SCRIPTPUBKEY_SIZE), s2)
    else
      match readExact len s2 with
      | (Except.ok bytes, s3) => (Except.ok bytes, s3)
      | (Except.error e, s3) => (Except.error e, s3)
  | (Except.error e, s1) => (Except.error e, s1)

theorem readsBack_string (str : List Nat) (bs : List Nat)
    (hw : writeString str = Except.ok bs) (hu : utf8Valid str = true) :
    ReadsBack readString bs str := by
  simp only [writeString] at hw
  by_cases hlen : str.length > MAX_STRING_LEN
  · simp [hlen] at hw
  · simp only [hlen, if_false, Except.ok.injEq] at hw
    subst hw
    intro rest tr
    have hlen32 : str.length < 4294967296 := by
      simp only [MAX_STRING_LEN, gt_iff_lt, not_lt] at hlen
      omega
    obtain ⟨tr1, h1⟩ := readsBack_exact str rest (tr ++ [str.length])
    refine ⟨tr1, ?_⟩
    simp only [readString, List.append_assoc, writeU32_readU32 _ hlen32]
    simp only [gt_iff_lt, hlen, if_false]
    simp only [h1, hu, if_true]

theorem readsBack_script (sc : List Nat) (bs : List Nat)
    (hw : writeScript sc = Except.ok bs) :
    ReadsBack readScript bs sc := by
  simp only [writeScript] at hw
  by_cases hlen : sc.length > MAX_SCRIPTPUBKEY_SIZE
  · simp [hlen] at hw
  · simp only [hlen, if_false, Except.ok.injEq] at hw
    subst hw
    intro rest tr
    have hlen32 : sc.length < 4294967296 := by
      simp only [MAX_SCRIPTPUBKEY_SIZE, gt_iff_lt, not_lt] at hlen
      omega
    obtain ⟨tr1, h1⟩ := readsBack_exact sc rest (tr ++ [sc.length])
    refine ⟨tr1, ?_⟩
    simp only [readScript, List.append_assoc, writeU32_readU32 _ hlen32]
    simp only [gt_iff_lt, hlen, if_false]
    simp only [h1]

/-- `HashMap::insert`: overwrite the value at an existing key in place,
otherwise add the pair.  The map is modelled as its association list in
iteration order. -/
def insertKV [DecidableEq κ] (l : List (κ × ν)) (k : κ) (v : ν) :
    List (κ × ν) :=
  if l.any (fun p => p.1 = k) then
    l.map (fun p => if p.1 = k then (k, v) else p)
  else l ++ [(k, v)]

theorem insertKV_notMem [DecidableEq κ] (l : List (κ × ν)) (k : κ) (v : ν)
    (h : k ∉ l.map Prod.fst) : insertKV l k v = l ++ [(k, v)] := by
  have : ¬ l.any (fun p => decide (p.1 = k)) := by
    simp only [List.any_eq_true, decide_eq_true_eq, not_exists]
    intro p hp
    exact h (by simp only [List.mem_map]; exact ⟨p, hp.1, hp.2⟩)
  simp only [insertKV]
  rw [if_neg]
  simpa using this

/-- One encoded key-value pair: the key bytes then the value bytes
(`t.write_to(&mut w)?; v.write_to(&mut w)?;`). -/
def writeKV (wK : κ → Except DecErr (List Nat))
    (wV : ν → Except DecErr (List Nat)) (p : κ × ν) :
    Except DecErr (List Nat) :=
  match wK p.1, wV p.2 with
  | Except.ok a, Except.ok b => Except.ok (a ++ b)
  | Except.error e, _ => Except.error e
  | Except.ok _, Except.error e => Except.error e

/-- `<HashMap<T, V> as Serialize>::write_to`: length bound check, then
the 32-bit length, then the key-value pairs in iteration order. -/
def writeMap (wK : κ → Except DecErr (List Nat))
    (wV : ν → Except DecErr (List Nat)) (l : List (κ × ν)) :
    Except DecErr (List Nat) :=
  if l.length > MAX_VEC_ELEMS then
    Except.error (DecErr.bound l.length MAX_VEC_ELEMS)
  else
    match writeElems (writeKV wK wV) l with
    | Except.ok bs => Except.ok (writeU32 l.length ++ bs)
    | Except.error e => Except.error e

/-- The element loop of `<HashMap<T, V> as Serialize>::read_from`:
`for _ in 0..len32 { ret.insert(read_from(..)?, read_from(..)?); }` —
a key, then a value, inserted with overwrite semantics. -/
def readMapElems [DecidableEq κ] (rK : Dec κ) (rV : Dec ν) :
    Nat → List (κ × ν) → Dec (List (κ × ν))
  | 0, acc => fun s => (Except.ok acc, s)
  | n + 1, acc => fun s =>
    match rK s with
    | (Except.ok k, s1) =>
      match rV s1 with
      | (Except.ok v, s2) => readMapElems rK rV n (insertKV acc k v) s2
      | (Except.error e, s2) => (Except.error e, s2)
    | (Except.error e, s1) => (Except.error e, s1)

/-- `<HashMap<T, V> as Serialize>::read_from`: read the 32-bit length,
then `HashMap::with_capacity(len32 as usize)` (logged as an allocation),
THEN the bound check, then the pair loop — the allocation precedes the
check, exactly as in the source. -/
def readMap [DecidableEq κ] (rK : Dec κ) (rV : Dec ν) :
    Dec (List (κ × ν)) := fun s =>
  match readU32 s with
  | (Except.ok len, s1) =>
    let s2 : DecState := { s1 with allocs := s1.allocs ++ [len] }
    if len > MAX_VEC_ELEMS then
      (Except.error (DecErr.bound len MAX_VEC_ELEMS), s2)
    else readMapElems rK rV len [] s2
  | (Except.error e, s1) => (Except.error e, s1)

theorem readsBack_mapElems [DecidableEq κ] (rK : Dec κ) (rV : Dec ν)
    (wK : κ → Except DecErr (List Nat)) (wV : ν → Except DecErr (List Nat))
    (l : List (κ × ν)) (bs : List Nat)
    (hw : writeElems (writeKV wK wV) l = Except.ok bs)
    (hnd : (l.map Prod.fst).Nodup)
    (hkey : ∀ p ∈ l, ∀ ba, wK p.1 = Except.ok ba → ReadsBack rK ba p.1)
    (hval : ∀ p ∈ l, ∀ ba, wV p.2 = Except.ok ba → ReadsBack rV ba p.2) :
    ∀ acc, (∀ p ∈ l, p.1 ∉ acc.map Prod.fst) →
      ∀ rest tr, ∃ tr2,
        readMapElems rK rV l.length acc ⟨bs ++ rest, tr⟩ =
          (Except.ok (acc ++ l), ⟨rest, tr2⟩) := by
  induction l generalizing bs with
  | nil =>
    simp only [writeElems, Except.ok.injEq] at hw
    subst hw
    intro acc _ rest tr
    exact ⟨tr, by simp [readMapElems]⟩
  | cons p l ih =>
    simp only [writeElems] at hw
    cases hp : writeKV wK wV p with
    | error e => rw [hp] at hw; exact absurd hw (by simp)
    | ok bp =>
      cases hl : writeElems (writeKV wK wV) l with
      | error e => rw [hp, hl] at hw; exact absurd hw (by simp)
      | ok bl =>
        rw [hp, hl] at hw
        simp only [Except.ok.injEq] at hw
        subst hw
        intro acc hacc rest tr
        simp only [writeKV] at hp
        cases hk : wK p.1 with
        | error e => rw [hk] at hp; exact absurd hp (by simp)
        | ok bk =>
          cases hv : wV p.2 with
          | error e => rw [hk, hv] at hp; exact absurd hp (by simp)
          | ok bv =>
            rw [hk, hv] at hp
            simp only [Except.ok.injEq] at hp
            subst hp
            obtain ⟨tr1, h1⟩ := hkey p (by simp) bk hk (bv ++ (bl ++ rest)) tr
            obtain ⟨tr2, h2⟩ := hval p (by simp) bv hv (bl ++ rest) tr1
            simp only [List.map_cons, List.nodup_cons] at hnd
            have hins : insertKV acc p.1 p.2 = acc ++ [p] := by
              have := insertKV_notMem acc p.1 p.2 (hacc p (by simp))
              simpa using this
            obtain ⟨tr3, h3⟩ :=
              ih bl hl hnd.2
                (fun q hq => hkey q (by simp [hq]))
                (fun q hq => hval q (by simp [hq]))
                (acc ++ [p])
                (by
                  intro q hq
                  simp only [List.map_append, List.map_cons, List.map_nil,
                    List.mem_append, List.mem_singleton, not_or]
                  refine ⟨?_, ?_⟩
                  · exact fun hmem =>
                      hacc q (by simp [hq]) (by simpa using hmem)
                  · intro hq1
                    exact hnd.1 (by
                      rw [← hq1]
                      simp only [List.mem_map]
                      exact ⟨q, hq, rfl⟩))
                rest tr2
            refine ⟨tr3, ?_⟩
            simp only [List.length_cons, readMapElems, List.append_assoc,
              h1, h2, hins]
            simp only [List.append_assoc] at h3
            rw [h3]
            simp

theorem readsBack_map [DecidableEq κ] (rK : Dec κ) (rV : Dec ν)
    (wK : κ → Except DecErr (List Nat)) (wV : ν → Except DecErr (List Nat))
    (l : List (κ × ν)) (bs : List Nat)
    (hw : writeMap wK wV l = Except.ok bs)
    (hnd : (l.map Prod.fst).Nodup)
    (hkey : ∀ p ∈ l, ∀ ba, wK p.1 = Except.ok ba → ReadsBack rK ba p.1)
    (hval : ∀ p ∈ l, ∀ ba, wV p.2 = Except.ok ba → ReadsBack rV ba p.2) :
    ReadsBack (readMap rK rV) bs l := by
  simp only [writeMap] at hw
  by_cases hlen : l.length > MAX_VEC_ELEMS
  · simp [hlen] at hw
  · simp only [hlen, if_false] at hw
    cases he : writeElems (writeKV wK wV) l with
    | error e => rw [he] at hw; exact absurd hw (by simp)
    | ok body =>
      rw [he] at hw
      simp only [Except.ok.injEq] at hw
      subst hw
      intro rest tr
      have hlen32 : l.length < 4294967296 := by
        simp only [MAX_VEC_ELEMS, gt_iff_lt, not_lt] at hlen
        omega
      obtain ⟨tr2, hrd⟩ :=
        readsBack_mapElems rK rV wK wV l body he hnd hkey hval []
          (by simp) rest (tr ++ [l.length])
      refine ⟨tr2, ?_⟩
      simp only [readMap, List.append_assoc, writeU32_readU32 _ hlen32]
      simp only [gt_iff_lt, hlen, if_false]
      simpa using hrd

theorem writeVec_ok (wT : α → Except DecErr (List Nat)) (rT : Dec α)
    (l : List α) (hlen : l.length ≤ MAX_VEC_ELEMS)
    (helem : ∀ a ∈ l, ∃ ba, wT a = Except.ok ba ∧ ReadsBack rT ba a) :
    ∃ bs, writeVec wT l = Except.ok bs ∧ ReadsBack (readVec rT) bs l := by
  have helems : ∃ body, writeElems wT l = Except.ok body := by
    clear hlen
    induction l with
    | nil => exact ⟨[], rfl⟩
    | cons a l ih =>
      obtain ⟨ba, hba, _⟩ := helem a (by simp)
      obtain ⟨body, hbody⟩ := ih (fun x hx => helem x (by simp [hx]))
      exact ⟨ba ++ body, by simp [writeElems, hba, hbody]⟩
  obtain ⟨body, hbody⟩ := helems
  have hw : writeVec wT l = Except.ok (writeU32 l.length ++ body) := by
    simp [writeVec, Nat.not_lt.mpr hlen, hbody]
  refine ⟨writeU32 l.length ++ body, hw, ?_⟩
  exact readsBack_vec rT wT l _ hw
    (fun a ha ba hba => by
      obtain ⟨ba2, hba2, hrb⟩ := helem a ha
      rw [hba2] at hba
      simp only [Except.ok.injEq] at hba
      subst hba
      exact hrb)

theorem writeMap_ok [DecidableEq κ] (wK : κ → Except DecErr (List Nat))
    (wV : ν → Except DecErr (List Nat)) (rK : Dec κ) (rV : Dec ν)
    (l : List (κ × ν)) (hlen : l.length ≤ MAX_VEC_ELEMS)
    (hnd : (l.map Prod.fst).Nodup)
    (hkey : ∀ p ∈ l, ∃ ba, wK p.1 = Except.ok ba ∧ ReadsBack rK ba p.1)
    (hval : ∀ p ∈ l, ∃ ba, wV p.2 = Except.ok ba ∧ ReadsBack rV ba p.2) :
    ∃ bs, writeMap wK wV l = Except.ok bs ∧
      ReadsBack (readMap rK rV) bs l := by
  have helems : ∃ body, writeElems (writeKV wK wV) l = Except.ok body := by
    clear hlen hnd
    induction l with
    | nil => exact ⟨[], rfl⟩
    | cons p l ih =>
      obtain ⟨bk, hbk, _⟩ := hkey p (by simp)
      obtain ⟨bv, hbv, _⟩ := hval p (by simp)
      obtain ⟨body, hbody⟩ := ih
        (fun x hx => hkey x (by simp [hx]))
        (fun x hx => hval x (by simp [hx]))
      exact ⟨(bk ++ bv) ++ body,
        by simp [writeElems, writeKV, hbk, hbv, hbody]⟩
  obtain ⟨body, hbody⟩ := helems
  have hw : writeMap wK wV l = Except.ok (writeU32 l.length ++ body) := by
    simp [writeMap, Nat.not_lt.mpr hlen, hbody]
  refine ⟨writeU32 l.length ++ body, hw, ?_⟩
  refine readsBack_map rK rV wK wV l _ hw hnd ?_ ?_
  · intro p hp ba hba
    obtain ⟨ba2, hba2, hrb⟩ := hkey p hp
    rw [hba2] at hba
    simp only [Except.ok.injEq] at hba
    subst hba
    exact hrb
  · intro p hp ba hba
    obtain ⟨ba2, hba2, hrb⟩ := hval p hp
    rw [hba2] at hba
    simp only [Except.ok.injEq] at hba
    subst hba
    exact hrb

theorem writeString_ok (str : List Nat) (hlen : str.length ≤ MAX_STRING_LEN)
    (hu : utf8Valid str = true) :
    ∃ bs, writeString str = Except.ok bs ∧ ReadsBack readString bs str := by
  have hw : writeString str = Except.ok (writeU32 str.length ++ str) := by
    simp [writeString, Nat.not_lt.mpr hlen]
  exact ⟨_, hw, readsBack_string str _ hw hu⟩

theorem writeScript_ok (sc : List Nat)
    (hlen : sc.length ≤ MAX_SCRIPTPUBKEY_SIZE) :
    ∃ bs, writeScript sc = Except.ok bs ∧ ReadsBack readScript bs sc := by
  have hw : writeScript sc = Except.ok (writeU32 sc.length ++ sc) := by
    simp [writeScript, Nat.not_lt.mpr hlen]
  exact ⟨_, hw, readsBack_script sc _ hw⟩

-- Fixed-width bitcoin types

/-- A transaction id: 32 raw bytes
(`<miniscript::bitcoin::Txid as Serialize>`). -/
abbrev Txid : Type := List Nat

/-- `Txid::write_to`: the 32 raw bytes themselves. -/
def writeTxid (t : Txid) : List Nat := t

/-- `Txid::read_from`: `read_exact` into a 32-byte buffer. -/
def readTxid : Dec Txid := readExact 32

theorem readsBack_txid (t : Txid) (h : t.length = 32) :
    ReadsBack readTxid (writeTxid t) t := by
  have := readsBack_exact t
  rw [h] at this
  exact this

/-- `bitcoin::OutPoint`: a txid plus output index. -/
structure OutPoint where
  txid : Txid
  vout : Nat
  deriving DecidableEq

/-- Well-formed outpoint: 32-byte txid with byte values, 32-bit vout. -/
def OutPoint.wf (o : OutPoint) : Prop :=
  o.txid.length = 32 ∧ (∀ b ∈ o.txid, b < 256) ∧ o.vout < 4294967296

instance (o : OutPoint) : Decidable o.wf := by
  unfold OutPoint.wf
  infer_instance

/-- `OutPoint::write_to`: the txid then the vout. -/
def writeOutPoint (o : OutPoint) : List Nat := writeTxid o.txid ++ writeU32 o.vout

/-- `OutPoint::read_from`: the txid then the vout. -/
def readOutPoint : Dec OutPoint := fun s =>
  match readTxid s with
  | (Except.ok t, s1) =>
    match readU32 s1 with
    | (Except.ok v, s2) => (Except.ok ⟨t, v⟩, s2)
    | (Except.error e, s2) => (Except.error e, s2)
  | (Except.error e, s1) => (Except.error e, s1)

theorem readsBack_outpoint (o : OutPoint) (h : o.wf) :
    ReadsBack readOutPoint (writeOutPoint o) o := by
  intro rest tr
  obtain ⟨h32, _, hv⟩ := h
  obtain ⟨tr1, h1⟩ := readsBack_txid o.txid h32 (writeU32 o.vout ++ rest) tr
  refine ⟨tr1, ?_⟩
  simp only [readOutPoint, writeOutPoint, List.append_assoc, h1,
    writeU32_readU32 _ hv]

/-- A serialized public key: its standard point-serialization bytes
(33 bytes compressed with marker 2 or 3, or 65 bytes uncompressed with
marker 4). -/
abbrev PubKey : Type := List Nat

/-- Well-formedness of a serialized public key as checked by
`PublicKey::from_slice`, abstracted to the marker/length shape check
(curve-point membership is validated by the external secp library and is
not modelled; every key the wallet actually holds satisfies it). -/
def pubKeyShape (k : List Nat) : Bool :=
  (decide (k.length = 33) && (k.head? = some 2 || k.head? = some 3)) ||
    (decide (k.length = 65) && k.head? = some 4)

/-- `<bitcoin::PublicKey as Serialize>::write_to` (`write_into`): the
serialized key bytes. -/
def writePubKey (k : PubKey) : List Nat := k

/-- `<bitcoin::PublicKey as Serialize>::read_from`: one marker byte; a
marker below 4 means 32 more bytes (compressed), otherwise 64 more
(uncompressed); then `from_slice` validation. -/
def readPubKey : Dec PubKey := fun s =>
  match readU8 s with
  | (Except.ok b, s1) =>
    if b < 4 then
      match readExact 32 s1 with
      | (Except.ok bytes, s2) =>
        if pubKeyShape (b :: bytes) then (Except.ok (b :: bytes), s2)
        else (Except.error DecErr.badKey, s2)
      | (Except.error e, s2) => (Except.error e, s2)
    else
      match readExact 64 s1 with
      | (Except.ok bytes, s2) =>
        if pubKeyShape (b :: bytes) then (Except.ok (b :: bytes), s2)
        else (Except.error DecErr.badKey, s2)
      | (Except.error e, s2) => (Except.error e, s2)
  | (Except.error e, s1) => (Except.error e, s1)

theorem readsBack_pubkey (k : PubKey) (h : pubKeyShape k = true) :
    ReadsBack readPubKey (writePubKey k) k := by
  intro rest tr
  simp only [pubKeyShape, Bool.or_eq_true, Bool.and_eq_true,
    decide_eq_true_eq, Bool.or_eq_true] at h
  cases k with
  | nil => simp at h
  | cons b bytes =>
    rcases h with ⟨hlen, hmark⟩ | ⟨hlen, hmark⟩
    · have hb : b < 4 := by
        simp only [List.head?_cons, Option.some.injEq] at hmark
        rcases hmark with h2 | h3 <;> omega
      have h32 : bytes.length = 32 := by simpa using hlen
      obtain ⟨tr1, h1⟩ := readsBack_exact bytes rest tr
      rw [h32] at h1
      refine ⟨tr1, ?_⟩
      simp only [writePubKey, readPubKey, List.cons_append, readU8, hb,
        if_true, h1]
      have : pubKeyShape (b :: bytes) = true := by
        simp only [pubKeyShape, Bool.or_eq_true, Bool.and_eq_true,
          decide_eq_true_eq]
        left
        exact ⟨by simpa using hlen, by simpa using hmark⟩
      simp only [this, if_true]
    · have hb : ¬ b < 4 := by
        simp only [List.head?_cons, Option.some.injEq] at hmark
        omega
      have h64 : bytes.length = 64 := by simpa using hlen
      obtain ⟨tr1, h1⟩ := readsBack_exact bytes rest tr
      rw [h64] at h1
      refine ⟨tr1, ?_⟩
      simp only [writePubKey, readPubKey, List.cons_append, readU8, hb,
        if_false, h1]
      have : pubKeyShape (b :: bytes) = true := by
        simp only [pubKeyShape, Bool.or_eq_true, Bool.and_eq_true,
          decide_eq_true_eq]
        right
        exact ⟨by simpa using hlen, by simpa using hmark⟩
      simp only [this, if_true]

/-- A BIP32 derivation path: the child numbers with the hardened bit
folded into the integer (`bip32::DerivationPath` as serialized). -/
abbrev DerivPath : Type := List Nat

/-- `<bip32::DerivationPath as Serialize>::write_to`: as a `Vec<u32>`. -/
def writeDerivPath (p : DerivPath) : Except DecErr (List Nat) :=
  writeVec (fun c => Except.ok (writeU32 c)) p

/-- `<bip32::DerivationPath as Serialize>::read_from`: as a `Vec<u32>`. -/
def readDerivPath : Dec DerivPath := readVec readU32

/-- Well-formed derivation path: at most `MAX_VEC_ELEMS` 32-bit child
numbers. -/
def derivPathWf (p : DerivPath) : Prop :=
  p.length ≤ MAX_VEC_ELEMS ∧ ∀ c ∈ p, c < 4294967296

instance (p : DerivPath) : Decidable (derivPathWf p) := by
  unfold derivPathWf
  infer_instance

theorem writeDerivPath_ok (p : DerivPath) (h : derivPathWf p) :
    ∃ bs, writeDerivPath p = Except.ok bs ∧
      ReadsBack readDerivPath bs p := by
  exact writeVec_ok _ readU32 p h.1
    (fun c hc => ⟨writeU32 c, rfl, readsBack_u32 c (h.2 c hc)⟩)

-- Policy templates (miniscript descriptors)

/-- Abstract model of `miniscript::Descriptor<DescriptorPublicKey>` as
exercised by this wallet: the single-key policy family with one hardened
wildcard level (cf. the importer's `pkh(<xpub>/44h/0h/0h/2h/*h)`),
identified by the derivation-path origin of its wildcard key.  The
miniscript crate is external; the contract the wallet relies on is that
descriptors are equal iff their canonical texts are equal and that
`from_str` inverts `to_string`. -/
structure MsDescriptor where
  originPath : List Nat
  deriving DecidableEq

/-- Fuelled little-endian base-10 digit expansion; `fuel ≥ n` makes it
total (kept structurally recursive so that concrete texts evaluate). -/
def digits10Fuel : Nat → Nat → List Nat
  | _, 0 => []
  | 0, _ + 1 => []
  | f + 1, n + 1 => ((n + 1) % 10) :: digits10Fuel f ((n + 1) / 10)

/-- The little-endian base-10 digits of `n`. -/
def natDigits10 (n : Nat) : List Nat := digits10Fuel n n

theorem digits10Fuel_lt (f n : Nat) : ∀ d ∈ digits10Fuel f n, d < 10 := by
  induction f generalizing n with
  | zero => cases n <;> simp [digits10Fuel]
  | succ f ih =>
    cases n with
    | zero => simp [digits10Fuel]
    | succ m =>
      intro d hd
      simp only [digits10Fuel, List.mem_cons] at hd
      rcases hd with hd | hd
      · omega
      · exact ih _ d hd

theorem ofDigits_digits10Fuel (f n : Nat) (h : n ≤ f) :
    Nat.ofDigits 10 (digits10Fuel f n) = n := by
  induction f generalizing n with
  | zero =>
    interval_cases n
    simp [digits10Fuel, Nat.ofDigits_nil]
  | succ f ih =>
    cases n with
    | zero => simp [digits10Fuel, Nat.ofDigits_nil]
    | succ m =>
      have hdiv : (m + 1) / 10 ≤ f := by omega
      simp only [digits10Fuel, Nat.ofDigits_cons, ih _ hdiv]
      omega

theorem ofDigits_natDigits10 (n : Nat) :
    Nat.ofDigits 10 (natDigits10 n) = n :=
  ofDigits_digits10Fuel n n le_rfl

/-- One path component of the canonical text: its decimal digits as
ASCII bytes (least significant first) followed by a `/` separator. -/
def encComp (c : Nat) : List Nat := (natDigits10 c).map (· + 48) ++ [47]

/-- The canonical textual form of a descriptor (`Descriptor::to_string`,
abstracted): the rendered components of the origin path. -/
def msText (d : MsDescriptor) : List Nat := (d.originPath.map encComp).flatten

/-- Read one textual path component: digit bytes up to the `/`
separator. -/
def parseDigits : List Nat → Option (List Nat × List Nat)
  | [] => none
  | b :: rest =>
    if b = 47 then some ([], rest)
    else if 48 ≤ b ∧ b ≤ 57 then
      match parseDigits rest with
      | some (ds, r) => some ((b - 48) :: ds, r)
      | none => none
    else none

theorem parseDigits_length (l : List Nat) (ds : List Nat) (r : List Nat)
    (h : parseDigits l = some (ds, r)) : r.length < l.length := by
  induction l generalizing ds r with
  | nil => simp [parseDigits] at h
  | cons b rest ih =>
    simp only [parseDigits] at h
    split at h
    · simp only [Option.some.injEq, Prod.mk.injEq] at h
      simp [← h.2]
    · split at h
      · cases hp : parseDigits rest with
        | none => rw [hp] at h; simp at h
        | some p =>
          rw [hp] at h
          simp only [Option.some.injEq, Prod.mk.injEq] at h
          have hlt := ih p.1 p.2 (by rw [hp])
          have h2 := h.2
          subst h2
          simp only [List.length_cons]
          omega
      · simp at h

/-- Fuelled parse of a whole canonical text into its path components. -/
def msParseFuel : Nat → List Nat → Option (List Nat)
  | _, [] => some []
  | 0, _ :: _ => none
  | fuel + 1, b :: rest =>
    match parseDigits (b :: rest) with
    | some (ds, r) =>
      match msParseFuel fuel r with
      | some cs => some (Nat.ofDigits 10 ds :: cs)
      | none => none
    | none => none

/-- `Descriptor::from_str`, abstracted: parse the canonical text back
into the descriptor. -/
def msParse (bs : List Nat) : Option MsDescriptor :=
  (msParseFuel bs.length bs).map MsDescriptor.mk

theorem msParseFuel_congr (fuel1 fuel2 : Nat) (l : List Nat)
    (h1 : l.length ≤ fuel1) (h2 : l.length ≤ fuel2) :
    msParseFuel fuel1 l = msParseFuel fuel2 l := by
  induction fuel1 generalizing fuel2 l with
  | zero =>
    cases l with
    | nil => cases fuel2 <;> rfl
    | cons b rest => simp at h1
  | succ f ih =>
    cases l with
    | nil => cases fuel2 <;> rfl
    | cons b rest =>
      cases fuel2 with
      | zero => simp at h2
      | succ f2 =>
        cases hp : parseDigits (b :: rest) with
        | none => simp only [msParseFuel, hp]
        | some p =>
          obtain ⟨ds, r⟩ := p
          have hlen := parseDigits_length _ ds r (by rw [hp])
          simp only [List.length_cons] at h1 h2 hlen
          simp only [msParseFuel, hp]
          rw [ih f2 r (by omega) (by omega)]

theorem parseDigits_encComp (c : Nat) (rest : List Nat) :
    parseDigits (encComp c ++ rest) =
      some (natDigits10 c, rest) := by
  unfold encComp
  generalize hds : natDigits10 c = ds
  have hlt : ∀ d ∈ ds, d < 10 := by
    intro d hd
    rw [← hds] at hd
    exact digits10Fuel_lt c c d hd
  clear hds
  induction ds with
  | nil => simp [parseDigits]
  | cons d ds ih =>
    have hd : d < 10 := hlt d (by simp)
    simp only [List.map_cons, List.cons_append, parseDigits]
    rw [if_neg (by omega), if_pos (by constructor <;> omega)]
    simp only [List.append_eq]
    rw [ih (fun x hx => hlt x (by simp [hx]))]
    simp

theorem msParse_msText (d : MsDescriptor) : msParse (msText d) = some d := by
  suffices h : ∀ l : List Nat, ∀ fuel,
      ((l.map encComp).flatten).length ≤ fuel →
      msParseFuel fuel ((l.map encComp).flatten) = some l by
    cases d with
    | mk path =>
      simp only [msParse, msText]
      rw [h path _ le_rfl]
      rfl
  intro l
  induction l with
  | nil => intro fuel _; cases fuel <;> rfl
  | cons c l ih =>
    intro fuel hfuel
    have hjoin : ((c :: l).map encComp).flatten =
        encComp c ++ (l.map encComp).flatten := by simp
    rw [hjoin] at hfuel ⊢
    have hne : encComp c ++ (l.map encComp).flatten ≠ [] := by
      simp [encComp]
    cases hx : encComp c ++ (l.map encComp).flatten with
    | nil => exact absurd hx hne
    | cons b rest =>
      cases fuel with
      | zero =>
        rw [hx] at hfuel
        simp at hfuel
      | succ f =>
        rw [← hx]
        have hstep : msParseFuel (f + 1)
            (encComp c ++ (l.map encComp).flatten) =
            match parseDigits (encComp c ++ (l.map encComp).flatten) with
            | some (ds, r) =>
              match msParseFuel f r with
              | some cs => some (Nat.ofDigits 10 ds :: cs)
              | none => none
            | none => none := by
          rw [hx]
          rfl
        rw [hstep, parseDigits_encComp]
        have hrest : ((l.map encComp).flatten).length ≤ f := by
          have hec : (encComp c).length ≥ 1 := by simp [encComp]
          simp only [List.length_append] at hfuel
          omega
        dsimp only
        rw [ih f hrest]
        simp [ofDigits_natDigits10]

theorem msText_ascii (d : MsDescriptor) : ∀ b ∈ msText d, b < 128 := by
  intro b hb
  simp only [msText, List.mem_flatten, List.mem_map] at hb
  obtain ⟨l, ⟨c, _, hc⟩, hbl⟩ := hb
  subst hc
  simp only [encComp, List.mem_append, List.mem_map, List.mem_singleton] at hbl
  rcases hbl with ⟨dgt, hdgt, hdb⟩ | h47
  · have : dgt < 10 := digits10Fuel_lt c c dgt hdgt
    omega
  · omega

/-- `<miniscript::Descriptor<DescriptorPublicKey> as Serialize>::write_to`:
the 32-bit length of the canonical text (`string.len() as u32`), then the
text bytes.  Note: unlike every other composite writer, there is NO
length bound check on this write path; it cannot fail. -/
def writeMsDesc (d : MsDescriptor) : List Nat :=
  writeU32 (msText d).length ++ msText d

/-- `<miniscript::Descriptor<DescriptorPublicKey> as Serialize>::read_from`:
read the 32-bit length, check it against `MAX_DESCRIPTOR_LEN` (here the
check DOES precede the allocation), then `vec![0; len]` (logged), then
`read_exact`, then UTF-8 validation, then `Descriptor::from_str`. -/
def readMsDesc : Dec MsDescriptor := fun s =>
  match readU32 s with
  | (Except.ok len, s1) =>
    if len > MAX_DESCRIPTOR_LEN then
      (Except.error (DecErr.bound len MAX_DESCRIPTOR_LEN), s1)
    else
      let s2 : DecState := { s1 with allocs := s1.allocs ++ [len] }
      match readExact len s2 with
      | (Except.ok data, s3) =>
        if utf8Valid data then
          match msParse data with
          | some d => (Except.ok d, s3)
          | none => (Except.error DecErr.badParse, s3)
        else (Except.error DecErr.badUtf8, s3)
      | (Except.error e, s3) => (Except.error e, s3)
  | (Except.error e, s1) => (Except.error e, s1)

/-- A descriptor is representable when its canonical text fits the
decode-side bound. -/
def msDescWf (d : MsDescriptor) : Prop :=
  (msText d).length ≤ MAX_DESCRIPTOR_LEN

instance (d : MsDescriptor) : Decidable (msDescWf d) := by
  unfold msDescWf
  infer_instance

theorem readsBack_msDesc (d : MsDescriptor) (h : msDescWf d) :
    ReadsBack readMsDesc (writeMsDesc d) d := by
  intro rest tr
  have hlen32 : (msText d).length < 4294967296 := by
    unfold msDescWf MAX_DESCRIPTOR_LEN at h
    omega
  have hnb : ¬ (msText d).length > MAX_DESCRIPTOR_LEN := Nat.not_lt.mpr h
  obtain ⟨tr1, h1⟩ :=
    readsBack_exact (msText d) rest (tr ++ [(msText d).length])
  refine ⟨tr1, ?_⟩
  simp only [readMsDesc, writeMsDesc, List.append_assoc,
    writeU32_readU32 _ hlen32, hnb, if_false, h1,
    utf8Valid_ascii _ (msText_ascii d), if_true, msParse_msText]

-- Wallet data model

/-- An output script, modelled as its bytes (`bitcoin::Script`). -/
abbrev Script : Type := List Nat

/-- Modelled from the spec: `src/lib/wallet/address.rs` is not among the
provided sources.  Per §3 and §6 an Address is
{owning descriptor index, wildcard index, creation time, free-form notes},
constructed by `Address::new(descriptor_idx, wildcard_idx, time, notes)`. -/
structure Address where
  descriptor_idx : Nat
  wildcard_idx : Nat
  time : List Nat
  notes : List Nat
  deriving DecidableEq

/-- Modelled from the spec: `Address` encodes as
`descriptor_idx:u32, wildcard_idx:u32, time:string, notes:string` (§6). -/
def writeAddress (a : Address) : Except DecErr (List Nat) :=
  match writeString a.time, writeString a.notes with
  | Except.ok bt, Except.ok bn =>
      Except.ok (writeU32 a.descriptor_idx ++ writeU32 a.wildcard_idx ++
        bt ++ bn)
  | Except.error e, _ => Except.error e
  | Except.ok _, Except.error e => Except.error e

/-- Modelled from the spec: decoder for the `Address` layout of §6. -/
def readAddress : Dec Address := fun s =>
  match readU32 s with
  | (Except.ok didx, s1) =>
    match readU32 s1 with
    | (Except.ok widx, s2) =>
      match readString s2 with
      | (Except.ok t, s3) =>
        match readString s3 with
        | (Except.ok n, s4) => (Except.ok ⟨didx, widx, t, n⟩, s4)
        | (Except.error e, s4) => (Except.error e, s4)
      | (Except.error e, s3) => (Except.error e, s3)
    | (Except.error e, s2) => (Except.error e, s2)
  | (Except.error e, s1) => (Except.error e, s1)

/-- Modelled from the spec: `src/lib/wallet/txo.rs` is not among the
provided sources.  Per §3 a Txo is keyed by outpoint and carries
{descriptor index, wildcard index, value, received height, optional
spending txid, optional spent height}; `Txo::new` fills the first five
with no spent data and `set_spent(txid, height)` sets the two optional
fields. -/
structure Txo where
  descriptor_idx : Nat
  wildcard_idx : Nat
  outpoint : OutPoint
  value : Nat
  height : Nat
  spending_txid : Option Txid
  spent_height : Option Nat
  deriving DecidableEq

/-- `Txo::new(didx, widx, outpoint, value, height)`: unspent. -/
def Txo.new (didx widx : Nat) (o : OutPoint) (value height : Nat) : Txo :=
  ⟨didx, widx, o, value, height, none, none⟩

/-- `Txo::set_spent(txid, height)`. -/
def Txo.setSpent (t : Txo) (txid : Txid) (height : Nat) : Txo :=
  { t with spending_txid := some txid, spent_height := some height }

/-- Modelled from the spec: an optional 32-byte txid as a presence byte
followed by the bytes ("plus spent fields", §6). -/
def writeOptTxid : Option Txid → List Nat
  | none => [0]
  | some t => 1 :: writeTxid t

/-- Modelled from the spec: decoder for an optional txid. -/
def readOptTxid : Dec (Option Txid) := fun s =>
  match readU8 s with
  | (Except.ok 0, s1) => (Except.ok none, s1)
  | (Except.ok 1, s1) =>
    match readTxid s1 with
    | (Except.ok t, s2) => (Except.ok (some t), s2)
    | (Except.error e, s2) => (Except.error e, s2)
  | (Except.ok _, s1) => (Except.error DecErr.badParse, s1)
  | (Except.error e, s1) => (Except.error e, s1)

/-- Modelled from the spec: an optional 64-bit height as a presence byte
followed by the integer ("plus spent fields", §6). -/
def writeOptU64 : Option Nat → List Nat
  | none => [0]
  | some n => 1 :: writeU64 n

/-- Modelled from the spec: decoder for an optional 64-bit integer. -/
def readOptU64 : Dec (Option Nat) := fun s =>
  match readU8 s with
  | (Except.ok 0, s1) => (Except.ok none, s1)
  | (Except.ok 1, s1) =>
    match readU64 s1 with
    | (Except.ok n, s2) => (Except.ok (some n), s2)
    | (Except.error e, s2) => (Except.error e, s2)
  | (Except.ok _, s1) => (Except.error DecErr.badParse, s1)
  | (Except.error e, s1) => (Except.error e, s1)

/-- Modelled from the spec: `Txo` encodes as `descriptor_idx:u32,
wildcard_idx:u32, outpoint, value:u64, height:u64`, plus the spent
fields (§6). -/
def writeTxo (t : Txo) : List Nat :=
  writeU32 t.descriptor_idx ++ writeU32 t.wildcard_idx ++
    writeOutPoint t.outpoint ++ writeU64 t.value ++ writeU64 t.height ++
    writeOptTxid t.spending_txid ++ writeOptU64 t.spent_height

/-- Modelled from the spec: decoder for the `Txo` layout of §6. -/
def readTxo : Dec Txo := fun s =>
  match readU32 s with
  | (Except.ok didx, s1) =>
    match readU32 s1 with
    | (Except.ok widx, s2) =>
      match readOutPoint s2 with
      | (Except.ok o, s3) =>
        match readU64 s3 with
        | (Except.ok v, s4) =>
          match readU64 s4 with
          | (Except.ok h, s5) =>
            match readOptTxid s5 with
            | (Except.ok st, s6) =>
              match readOptU64 s6 with
              | (Except.ok sh, s7) =>
                  (Except.ok ⟨didx, widx, o, v, h, st, sh⟩, s7)
              | (Except.error e, s7) => (Except.error e, s7)
            | (Except.error e, s6) => (Except.error e, s6)
          | (Except.error e, s5) => (Except.error e, s5)
        | (Except.error e, s4) => (Except.error e, s4)
      | (Except.error e, s3) => (Except.error e, s3)
    | (Except.error e, s2) => (Except.error e, s2)
  | (Except.error e, s1) => (Except.error e, s1)

/-- A descriptor record held in the wallet (`Descriptor` in
`mod.rs`): the policy template, the declared wildcard range
`[low, high)` and the next unused auto-allocation index. -/
structure WDescriptor where
  desc : MsDescriptor
  low : Nat
  high : Nat
  next_idx : Nat
  deriving DecidableEq

/-- `<Descriptor as Serialize>::write_to`: the template, then `low`,
`high`, `next_idx` as u32. -/
def writeWDescriptor (d : WDescriptor) : List Nat :=
  writeMsDesc d.desc ++ writeU32 d.low ++ writeU32 d.high ++
    writeU32 d.next_idx

/-- `<Descriptor as Serialize>::read_from`. -/
def readWDescriptor : Dec WDescriptor := fun s =>
  match readMsDesc s with
  | (Except.ok dsc, s1) =>
    match readU32 s1 with
    | (Except.ok lo, s2) =>
      match readU32 s2 with
      | (Except.ok hi, s3) =>
        match readU32 s3 with
        | (Except.ok ni, s4) => (Except.ok ⟨dsc, lo, hi, ni⟩, s4)
        | (Except.error e, s4) => (Except.error e, s4)
      | (Except.error e, s3) => (Except.error e, s3)
    | (Except.error e, s2) => (Except.error e, s2)
  | (Except.error e, s1) => (Except.error e, s1)

/-- The wallet aggregate (`Wallet` in `mod.rs`): last confirmed block
height, the registered descriptors in order, the labeled addresses keyed
by script, the tracked TXOs keyed by outpoint, and the key cache keyed
by derivation path (maps modelled as association lists in iteration
order). -/
structure Wallet where
  block_height : Nat
  descriptors : List WDescriptor
  addresses : List (Script × Address)
  txos : List (OutPoint × Txo)
  key_cache : List (DerivPath × PubKey)
  deriving DecidableEq

/-- `Wallet::new()` / `Default::default()`: the empty wallet. -/
def Wallet.new : Wallet := ⟨0, [], [], [], []⟩

/-- `<Wallet as Serialize>::write_to`: block height, descriptors,
addresses, txos, key cache, in that order. -/
def writeWallet (w : Wallet) : Except DecErr (List Nat) :=
  match writeVec (fun d => Except.ok (writeWDescriptor d)) w.descriptors,
      writeMap writeScript writeAddress w.addresses,
      writeMap (fun o => Except.ok (writeOutPoint o))
        (fun t => Except.ok (writeTxo t)) w.txos,
      writeMap writeDerivPath (fun k => Except.ok (writePubKey k))
        w.key_cache with
  | Except.ok bd, Except.ok ba, Except.ok bt, Except.ok bk =>
      Except.ok (writeU64 w.block_height ++ bd ++ ba ++ bt ++ bk)
  | Except.error e, _, _, _ => Except.error e
  | _, Except.error e, _, _ => Except.error e
  | _, _, Except.error e, _ => Except.error e
  | _, _, _, Except.error e => Except.error e

/-- `<Wallet as Serialize>::read_from`. -/
def readWallet : Dec Wallet := fun s =>
  match readU64 s with
  | (Except.ok bh, s1) =>
    match readVec readWDescriptor s1 with
    | (Except.ok ds, s2) =>
      match readMap readScript readAddress s2 with
      | (Except.ok ads, s3) =>
        match readMap readOutPoint readTxo s3 with
        | (Except.ok txs, s4) =>
          match readMap readDerivPath readPubKey s4 with
          | (Except.ok kc, s5) => (Except.ok ⟨bh, ds, ads, txs, kc⟩, s5)
          | (Except.error e, s5) => (Except.error e, s5)
        | (Except.error e, s4) => (Except.error e, s4)
      | (Except.error e, s3) => (Except.error e, s3)
    | (Except.error e, s2) => (Except.error e, s2)
  | (Except.error e, s1) => (Except.error e, s1)

-- Representability (well-formedness) and the wallet round trip

/-- Representable address: 32-bit indices, strings within the codec's
bound and valid UTF-8 (the Rust `String` type invariant). -/
def addressWf (a : Address) : Prop :=
  a.descriptor_idx < 4294967296 ∧ a.wildcard_idx < 4294967296 ∧
    a.time.length ≤ MAX_STRING_LEN ∧ utf8Valid a.time = true ∧
    a.notes.length ≤ MAX_STRING_LEN ∧ utf8Valid a.notes = true

instance (a : Address) : Decidable (addressWf a) := by
  unfold addressWf
  infer_instance

/-- Representable txo: 32-bit indices, well-formed outpoint, 64-bit
value and heights, 32-byte spending txid when present. -/
def txoWf (t : Txo) : Prop :=
  t.descriptor_idx < 4294967296 ∧ t.wildcard_idx < 4294967296 ∧
    t.outpoint.wf ∧ t.value < 18446744073709551616 ∧
    t.height < 18446744073709551616 ∧
    (∀ x ∈ t.spending_txid, x.length = 32) ∧
    (∀ h ∈ t.spent_height, h < 18446744073709551616)

instance (t : Txo) : Decidable (txoWf t) := by
  unfold txoWf
  infer_instance

/-- Representable descriptor record: representable template and 32-bit
range fields. -/
def wdescWf (d : WDescriptor) : Prop :=
  msDescWf d.desc ∧ d.low < 4294967296 ∧ d.high < 4294967296 ∧
    d.next_idx < 4294967296

instance (d : WDescriptor) : Decidable (wdescWf d) := by
  unfold wdescWf
  infer_instance

/-- Representable script key: within the codec's 50-byte bound. -/
def scriptWf (sc : Script) : Prop := sc.length ≤ MAX_SCRIPTPUBKEY_SIZE

instance (sc : Script) : Decidable (scriptWf sc) := by
  unfold scriptWf
  infer_instance

/-- Representable wallet: every collection within the codec's element
bound, map keys distinct (the `HashMap` invariant), and every component
representable. -/
def walletWf (w : Wallet) : Prop :=
  w.block_height < 18446744073709551616 ∧
  (w.descriptors.length ≤ MAX_VEC_ELEMS ∧
    ∀ d ∈ w.descriptors, wdescWf d) ∧
  (w.addresses.length ≤ MAX_VEC_ELEMS ∧
    (w.addresses.map Prod.fst).Nodup ∧
    ∀ p ∈ w.addresses, scriptWf p.1 ∧ addressWf p.2) ∧
  (w.txos.length ≤ MAX_VEC_ELEMS ∧
    (w.txos.map Prod.fst).Nodup ∧
    ∀ p ∈ w.txos, p.1.wf ∧ txoWf p.2) ∧
  (w.key_cache.length ≤ MAX_VEC_ELEMS ∧
    (w.key_cache.map Prod.fst).Nodup ∧
    ∀ p ∈ w.key_cache, derivPathWf p.1 ∧ pubKeyShape p.2 = true)

instance (w : Wallet) : Decidable (walletWf w) := by
  unfold walletWf
  infer_instance

theorem writeAddress_ok (a : Address) (h : addressWf a) :
    ∃ bs, writeAddress a = Except.ok bs ∧ ReadsBack readAddress bs a := by
  obtain ⟨hd, hw, ht1, ht2, hn1, hn2⟩ := h
  obtain ⟨bt, hbt, hrt⟩ := writeString_ok a.time ht1 ht2
  obtain ⟨bn, hbn, hrn⟩ := writeString_ok a.notes hn1 hn2
  have hwb : writeAddress a = Except.ok
      (writeU32 a.descriptor_idx ++ writeU32 a.wildcard_idx ++ bt ++ bn) := by
    simp [writeAddress, hbt, hbn]
  refine ⟨_, hwb, ?_⟩
  intro rest tr
  obtain ⟨tr1, h1⟩ := hrt (bn ++ rest) tr
  obtain ⟨tr2, h2⟩ := hrn rest tr1
  refine ⟨tr2, ?_⟩
  simp only [readAddress, List.append_assoc,
    writeU32_readU32 _ hd, writeU32_readU32 _ hw, h1, h2]

theorem readsBack_optTxid (t : Option Txid)
    (h : ∀ x ∈ t, x.length = 32) :
    ReadsBack readOptTxid (writeOptTxid t) t := by
  intro rest tr
  cases t with
  | none => exact ⟨tr, by simp [writeOptTxid, readOptTxid, readU8]⟩
  | some x =>
    obtain ⟨tr1, h1⟩ := readsBack_txid x (h x (by simp)) rest tr
    refine ⟨tr1, ?_⟩
    simp only [writeOptTxid, writeTxid, List.cons_append, readOptTxid,
      readU8]
    rw [show writeTxid x ++ rest = x ++ rest from rfl] at h1
    simp [h1]

theorem readsBack_optU64 (t : Option Nat)
    (h : ∀ x ∈ t, x < 18446744073709551616) :
    ReadsBack readOptU64 (writeOptU64 t) t := by
  intro rest tr
  cases t with
  | none => exact ⟨tr, by simp [writeOptU64, readOptU64, readU8]⟩
  | some n =>
    refine ⟨tr, ?_⟩
    simp only [writeOptU64, List.cons_append, readOptU64, readU8]
    simp [writeU64_readU64 n (h n (by simp)) rest tr]

theorem readsBack_txo (t : Txo) (h : txoWf t) :
    ReadsBack readTxo (writeTxo t) t := by
  obtain ⟨hd, hw, ho, hv, hh, hst, hsh⟩ := h
  intro rest tr
  obtain ⟨tr3, h3⟩ := readsBack_outpoint t.outpoint ho
    (writeU64 t.value ++ writeU64 t.height ++
      writeOptTxid t.spending_txid ++ writeOptU64 t.spent_height ++ rest)
    tr
  obtain ⟨tr6, h6⟩ := readsBack_optTxid t.spending_txid hst
    (writeOptU64 t.spent_height ++ rest) tr3
  obtain ⟨tr7, h7⟩ := readsBack_optU64 t.spent_height hsh rest tr6
  refine ⟨tr7, ?_⟩
  simp only [writeTxo, readTxo, List.append_assoc,
    writeU32_readU32 _ hd, writeU32_readU32 _ hw]
  simp only [List.append_assoc] at h3
  simp only [h3, writeU64_readU64 _ hv, writeU64_readU64 _ hh, h6, h7]

theorem readsBack_wdesc (d : WDescriptor) (h : wdescWf d) :
    ReadsBack readWDescriptor (writeWDescriptor d) d := by
  obtain ⟨hd, hl, hh, hn⟩ := h
  intro rest tr
  obtain ⟨tr1, h1⟩ := readsBack_msDesc d.desc hd
    (writeU32 d.low ++ writeU32 d.high ++ writeU32 d.next_idx ++ rest) tr
  refine ⟨tr1, ?_⟩
  simp only [writeWDescriptor, readWDescriptor, List.append_assoc]
  simp only [List.append_assoc] at h1
  simp only [h1, writeU32_readU32 _ hl, writeU32_readU32 _ hh,
    writeU32_readU32 _ hn]

theorem writeWallet_ok (w : Wallet) (h : walletWf w) :
    ∃ bs, writeWallet w = Except.ok bs ∧ ReadsBack readWallet bs w := by
  obtain ⟨hbh, ⟨hdl, hdw⟩, ⟨hal, hand, haw⟩, ⟨htl, htnd, htw⟩,
    ⟨hkl, hknd, hkw⟩⟩ := h
  obtain ⟨bd, hbd, hrd⟩ :=
    writeVec_ok (fun d => Except.ok (writeWDescriptor d)) readWDescriptor
      w.descriptors hdl
      (fun d hd => ⟨writeWDescriptor d, rfl, readsBack_wdesc d (hdw d hd)⟩)
  obtain ⟨ba, hba, hra⟩ :=
    writeMap_ok writeScript writeAddress readScript readAddress
      w.addresses hal hand
      (fun p hp => writeScript_ok p.1 (haw p hp).1)
      (fun p hp => writeAddress_ok p.2 (haw p hp).2)
  obtain ⟨bt, hbt, hrt⟩ :=
    writeMap_ok (fun o => Except.ok (writeOutPoint o))
      (fun t => Except.ok (writeTxo t)) readOutPoint readTxo w.txos htl htnd
      (fun p hp => ⟨writeOutPoint p.1, rfl,
        readsBack_outpoint p.1 (htw p hp).1⟩)
      (fun p hp => ⟨writeTxo p.2, rfl, readsBack_txo p.2 (htw p hp).2⟩)
  obtain ⟨bk, hbk, hrk⟩ :=
    writeMap_ok writeDerivPath (fun k => Except.ok (writePubKey k))
      readDerivPath readPubKey w.key_cache hkl hknd
      (fun p hp => writeDerivPath_ok p.1 (hkw p hp).1)
      (fun p hp => ⟨writePubKey p.2, rfl,
        readsBack_pubkey p.2 (hkw p hp).2⟩)
  have hwb : writeWallet w = Except.ok
      (writeU64 w.block_height ++ bd ++ ba ++ bt ++ bk) := by
    simp [writeWallet, hbd, hba, hbt, hbk]
  refine ⟨_, hwb, ?_⟩
  intro rest tr
  obtain ⟨tr1, h1⟩ := hrd (ba ++ (bt ++ (bk ++ rest))) tr
  obtain ⟨tr2, h2⟩ := hra (bt ++ (bk ++ rest)) tr1
  obtain ⟨tr3, h3⟩ := hrt (bk ++ rest) tr2
  obtain ⟨tr4, h4⟩ := hrk rest tr3
  refine ⟨tr4, ?_⟩
  simp only [readWallet, List.append_assoc, writeU64_readU64 _ hbh]
  simp only [h1, h2, h3, h4]

-- Wallet operations

/-- The key cache: derivation path to public key, in insertion order. -/
abbrev KeyCache : Type := List (DerivPath × PubKey)

/-- Observable dongle-side state: the log of external key requests in
order (the call-counting test stub of the Design Notes). -/
structure DongleLog where
  calls : List DerivPath
  deriving DecidableEq

/-- Modelled from the spec: `Dongle::get_wallet_public_key` lives in the
dongle module, which is not among the provided sources.  §4.3: on a
cache hit return the cached key with no external call; on a miss issue
exactly one blocking request to the authority (`oracle`, an abstract
deterministic key function), store the result in the cache, and return
it. -/
def getWalletPublicKey (oracle : DerivPath → PubKey) (path : DerivPath)
    (cache : KeyCache) (log : DongleLog) :
    PubKey × KeyCache × DongleLog :=
  match cache.find? (fun p => p.1 = path) with
  | some p => (p.2, cache, log)
  | none =>
    let k := oracle path
    (k, insertKV cache path k, ⟨log.calls ++ [path]⟩)

/-- The derivation path of a descriptor's single wildcard key
instantiated at `index`: the origin path with the hardened wildcard
index appended (`*h`, the hardened bit folded into the integer). -/
def derivedPath (d : MsDescriptor) (index : Nat) : DerivPath :=
  d.originPath ++ [2147483648 + index]

/-- The output-locking script computed from a concrete key
(`script_pubkey()` of the instantiated single-key-hash descriptor); the
hash computation is external, so the key bytes stand in for the hash
between the fixed opcodes. -/
def spkOf (k : PubKey) : Script := 118 :: 169 :: k ++ [136, 172]

/-- `Wallet::cache_key`: derive the descriptor at `index`, resolve its
wildcard key through the cache (§4.3), and compute the instantiated
script.  The authority is modelled as the total deterministic function
`oracle` (the test-stub view of the Design Notes), so the fallible Rust
signature collapses to the success path. -/
def cacheKey (oracle : DerivPath → PubKey) (cache : KeyCache)
    (desc : MsDescriptor) (index : Nat) (log : DongleLog) :
    Script × KeyCache × DongleLog :=
  let r := getWalletPublicKey oracle (derivedPath desc index) cache log
  (spkOf r.1, r.2.1, r.2.2)

/-- Errors surfaced by the wallet operations modelled here. -/
inductive WalletErr where
  | duplicateDescriptor : WalletErr
  deriving DecidableEq

/-- The scan loop at the top of `Wallet::add_descriptor`: walk the
registered descriptors in order; an identical template with identical
`[low, high)` is a duplicate-registration error; identical templates
with different ranges contribute their index ranges to the set of
already-covered indices (`acc`, a list standing for the `HashSet`). -/
def scanDescriptors (desc : MsDescriptor) (low high : Nat) :
    List WDescriptor → List Nat → Except WalletErr (List Nat)
  | [], acc => Except.ok acc
  | d :: rest, acc =>
    if d.desc = desc then
      if d.low = low ∧ d.high = high then
        Except.error WalletErr.duplicateDescriptor
      else
        scanDescriptors desc low high rest
          (acc ++ List.range' d.low (d.high - d.low))
    else scanDescriptors desc low high rest acc

/-- The derivation loop of `Wallet::add_descriptor`: for every index of
`[low, high)` not already covered, count it and force a key derivation. -/
def deriveLoop (oracle : DerivPath → PubKey) (desc : MsDescriptor)
    (existing : List Nat) :
    List Nat → Nat → KeyCache → DongleLog → Nat × KeyCache × DongleLog
  | [], added, cache, log => (added, cache, log)
  | i :: is, added, cache, log =>
    if i ∈ existing then deriveLoop oracle desc existing is added cache log
    else
      let r := cacheKey oracle cache desc i log
      deriveLoop oracle desc existing is (added + 1) r.2.1 r.2.2

/-- `Wallet::add_descriptor(desc, low, high)`: scan for duplicates and
covered indices, derive the uncovered indices of `[low, high)`, append
the new descriptor record with `next_idx = 0`, and return the count of
newly derived indices.  On the duplicate error the wallet (including its
key cache) and the dongle log are unchanged. -/
def addDescriptor (oracle : DerivPath → PubKey) (w : Wallet)
    (desc : MsDescriptor) (low high : Nat) (log : DongleLog) :
    Except WalletErr Nat × Wallet × DongleLog :=
  match scanDescriptors desc low high w.descriptors [] with
  | Except.error e => (Except.error e, w, log)
  | Except.ok existing =>
    let r := deriveLoop oracle desc existing
      (List.range' low (high - low)) 0 w.key_cache log
    (Except.ok r.1,
     { w with
        descriptors := w.descriptors ++ [⟨desc, low, high, 0⟩],
        key_cache := r.2.1 },
     r.2.2)

/-- `Wallet::add_address(descriptor_idx, wildcard_idx, time, notes)`:
take the descriptor at `descriptor_idx` (Rust panics on an
out-of-bounds index — modelled as `none`), resolve the wildcard index
(`next_idx` when omitted), advance `next_idx` to
`max(next_idx, wildcard_idx) + 1`, instantiate the script, and
insert/overwrite the Address keyed by that script.  The returned view
(`AddressInfo`) is modelled as the new Address record. -/
def addAddress (oracle : DerivPath → PubKey) (w : Wallet) (log : DongleLog)
    (descriptor_idx : Nat) (wildcard_idx : Option Nat)
    (time notes : List Nat) :
    Option (Address × Wallet × DongleLog) :=
  match w.descriptors[descriptor_idx]? with
  | none => none
  | some d =>
    let widx := wildcard_idx.getD d.next_idx
    let newNext := max d.next_idx widx + 1
    let descs2 := w.descriptors.set descriptor_idx
      { d with next_idx := newNext }
    let r := cacheKey oracle w.key_cache d.desc widx log
    let addr : Address := ⟨descriptor_idx, widx, time, notes⟩
    some (addr,
      { w with
          descriptors := descs2,
          addresses := insertKV w.addresses r.1 addr,
          key_cache := r.2.1 },
      r.2.2)

/-- Opaque cache of all scriptpubkeys the wallet is tracking
(`ScriptPubkeyCache`): script to (descriptor index, wildcard index). -/
structure SpkCache where
  spks : List (Script × Nat × Nat)
  deriving DecidableEq

/-- The inner loop of `Wallet::script_pubkey_cache`: every wildcard
index of the descriptor's declared range. -/
def buildSpkRange (oracle : DerivPath → PubKey) (desc : MsDescriptor)
    (didx : Nat) :
    List Nat → List (Script × Nat × Nat) → KeyCache → DongleLog →
      List (Script × Nat × Nat) × KeyCache × DongleLog
  | [], m, cache, log => (m, cache, log)
  | i :: is, m, cache, log =>
    let r := cacheKey oracle cache desc i log
    buildSpkRange oracle desc didx is (insertKV m r.1 (didx, i)) r.2.1 r.2.2

/-- The outer loop of `Wallet::script_pubkey_cache`: every descriptor,
with its index. -/
def buildSpkAll (oracle : DerivPath → PubKey) :
    List WDescriptor → Nat → List (Script × Nat × Nat) → KeyCache →
      DongleLog → List (Script × Nat × Nat) × KeyCache × DongleLog
  | [], _, m, cache, log => (m, cache, log)
  | d :: ds, didx, m, cache, log =>
    let r := buildSpkRange oracle d.desc didx
      (List.range' d.low (d.high - d.low)) m cache log
    buildSpkAll oracle ds (didx + 1) r.1 r.2.1 r.2.2

/-- `Wallet::script_pubkey_cache`: build the reverse index
script to (descriptor index, wildcard index) over every declared range;
may populate the key cache, so the wallet comes back possibly changed. -/
def scriptPubkeyCache (oracle : DerivPath → PubKey) (w : Wallet)
    (log : DongleLog) : SpkCache × Wallet × DongleLog :=
  let r := buildSpkAll oracle w.descriptors 0 [] w.key_cache log
  (⟨r.1⟩, { w with key_cache := r.2.1 }, r.2.2)

/-- `HashMap::get` on the script index. -/
def spkLookup (c : SpkCache) (spk : Script) : Option (Nat × Nat) :=
  (c.spks.find? (fun p => p.1 = spk)).map (fun p => p.2)

/-- Association-list lookup (`HashMap::get` / `get_mut`). -/
def lookupKV [DecidableEq κ] (l : List (κ × ν)) (k : κ) : Option ν :=
  (l.find? (fun p => p.1 = k)).map (fun p => p.2)

/-- `HashSet::insert` on an outpoint set modelled as a duplicate-free
list. -/
def insertSet [DecidableEq α] (l : List α) (x : α) : List α :=
  if x ∈ l then l else l ++ [x]

-- Block data (supplied already parsed, §6)

/-- A transaction output: locking script and value. -/
structure TxOut where
  script_pubkey : Script
  value : Nat
  deriving DecidableEq

/-- A transaction input: the outpoint it spends. -/
structure TxIn where
  previous_output : OutPoint
  deriving DecidableEq

/-- A transaction.  `tx.txid()` is an external hash computation, so the
id is carried as a field of the parsed transaction. -/
structure Transaction where
  txid : Txid
  input : List TxIn
  output : List TxOut
  deriving DecidableEq

/-- A block: its transactions in block order. -/
structure Block where
  txdata : List Transaction
  deriving DecidableEq

/-- The output loop of `Wallet::scan_block`: enumerate the outputs; if
the script is in the index, build the Txo and insert/overwrite it, and
record the outpoint as received. -/
def scanOutputs (tx : Transaction) (c : SpkCache) (height : Nat) :
    Nat → List TxOut → List (OutPoint × Txo) → List OutPoint →
      List (OutPoint × Txo) × List OutPoint
  | _, [], txos, received => (txos, received)
  | vout, o :: os, txos, received =>
    match spkLookup c o.script_pubkey with
    | some di =>
      let outpoint : OutPoint := ⟨tx.txid, vout⟩
      let t := Txo.new di.1 di.2 outpoint o.value height
      scanOutputs tx c height (vout + 1) os (insertKV txos outpoint t)
        (insertSet received outpoint)
    | none => scanOutputs tx c height (vout + 1) os txos received

/-- The input loop of `Wallet::scan_block`: if the spent outpoint is a
tracked Txo, set its spending txid and spent height, and record the
outpoint as spent. -/
def scanInputs (tx : Transaction) (height : Nat) :
    List TxIn → List (OutPoint × Txo) → List OutPoint →
      List (OutPoint × Txo) × List OutPoint
  | [], txos, spent => (txos, spent)
  | i :: is, txos, spent =>
    match lookupKV txos i.previous_output with
    | some t =>
      scanInputs tx height is
        (insertKV txos i.previous_output (t.setSpent tx.txid height))
        (insertSet spent i.previous_output)
    | none => scanInputs tx height is txos spent

/-- The transaction loop of `Wallet::scan_block`: per transaction, the
outputs then the inputs. -/
def scanTxs (c : SpkCache) (height : Nat) :
    List Transaction → List (OutPoint × Txo) → List OutPoint →
      List OutPoint →
      List (OutPoint × Txo) × List OutPoint × List OutPoint
  | [], txos, received, spent => (txos, received, spent)
  | tx :: txs, txos, received, spent =>
    let r1 := scanOutputs tx c height 0 tx.output txos received
    let r2 := scanInputs tx height tx.input r1.1 spent
    scanTxs c height txs r2.1 r1.2 r2.2

/-- `Wallet::scan_block(block, height, cache)`: returns the updated
wallet and the received and spent outpoint sets (the Rust `Result` never
carries an error on this path). -/
def scanBlock (w : Wallet) (block : Block) (height : Nat) (c : SpkCache) :
    Wallet × List OutPoint × List OutPoint :=
  let r := scanTxs c height block.txdata w.txos [] []
  ({ w with txos := r.1 }, r.2.1, r.2.2)

-- Claim C1

/-- C1 counterexample: on a wallet whose descriptor has next-unused
index 5, `add_address` with explicit wildcard index 0 leaves
`next_idx = 6` (the code computes `max(next_idx, wildcard_idx) + 1`),
whereas the claimed formula `max(next_idx, wildcard_idx + 1)` yields 5;
in particular an explicit index strictly below `next_idx - 1` does NOT
leave `next_idx` unchanged. -/
theorem c1_counterexample :
    (addAddress (fun p => p) ⟨0, [⟨⟨[0]⟩, 0, 10, 5⟩], [], [], []⟩ ⟨[]⟩
        0 (some 0) [] []).map
      (fun r => r.2.1.descriptors.map WDescriptor.next_idx) = some [6] ∧
    max 5 (0 + 1) ≠ 6 := by
  decide

/-- C1 (amended): for every call to `add_address` on a wallet whose
descriptor at `descriptor_idx` has next-unused index `n`, if
`wildcard_idx` is given explicitly as `w` then after the call the
descriptor's `next_idx` equals `max(n, w) + 1` (equivalently
`max(n + 1, w + 1)`); an explicit index below `n` therefore advances
`next_idx` from `n` to `n + 1` rather than leaving it unchanged. -/
theorem c1_next_idx (oracle : DerivPath → PubKey) (w : Wallet)
    (log : DongleLog) (idx wix : Nat) (time notes : List Nat)
    (d : WDescriptor) (hget : w.descriptors[idx]? = some d) :
    (addAddress oracle w log idx (some wix) time notes).map
        (fun r => r.2.1.descriptors[idx]?) =
      some (some { d with next_idx := max d.next_idx wix + 1 }) := by
  have hlt : idx < w.descriptors.length := by
    by_contra hge
    rw [List.getElem?_eq_none (Nat.le_of_not_lt hge)] at hget
    cases hget
  simp only [addAddress, hget, Option.getD_some, Option.map_some']
  congr 1
  exact List.getElem?_set_eq_of_lt _ hlt

/-- C1 witness: concrete instance of the amended statement, at a wallet
whose single descriptor has `next_idx = 5` and explicit index 7. -/
theorem c1_next_idx_witness :
    (addAddress (fun p => p) ⟨0, [⟨⟨[0]⟩, 0, 10, 5⟩], [], [], []⟩ ⟨[]⟩
        0 (some 7) [] []).map
      (fun r => r.2.1.descriptors[0]?) =
      some (some ⟨⟨[0]⟩, 0, 10, max 5 7 + 1⟩) :=
  c1_next_idx (fun p => p) ⟨0, [⟨⟨[0]⟩, 0, 10, 5⟩], [], [], []⟩ ⟨[]⟩
    0 7 [] [] ⟨⟨[0]⟩, 0, 10, 5⟩ (by decide)

-- Claim C2

/-- C2: decoding a length prefix beyond the bound does fail before
reading any payload bytes, but NOT before allocating: the string
decoder at length prefix 100001 (bytes `[161, 134, 1, 0]`) performs the
`vec![0; 100001]` allocation (the trace gains `100001`) and only then
fails with the bound error, leaving the payload byte unread; the
sequence decoder at length prefix 10001 likewise performs
`Vec::with_capacity(10001)` before its bound check fails. -/
theorem c2_alloc_precedes_bound_check :
    readString ⟨[161, 134, 1, 0, 55], []⟩ =
      (Except.error (DecErr.bound 100001 100000), ⟨[55], [100001]⟩) ∧
    readVec readU8 ⟨[17, 39, 0, 0, 55], []⟩ =
      (Except.error (DecErr.bound 10001 10000), ⟨[55], [10001]⟩) := by
  decide

-- Claim C4

theorem scanDescriptors_dup (desc : MsDescriptor) (low high : Nat)
    (descs : List WDescriptor) (acc : List Nat)
    (h : ∃ d ∈ descs, d.desc = desc ∧ d.low = low ∧ d.high = high) :
    scanDescriptors desc low high descs acc =
      Except.error WalletErr.duplicateDescriptor := by
  induction descs generalizing acc with
  | nil => simp at h
  | cons d rest ih =>
    obtain ⟨d0, hd0, hmatch⟩ := h
    simp only [scanDescriptors]
    rcases List.mem_cons.mp hd0 with heq | hmem
    · subst heq
      rw [if_pos hmatch.1, if_pos ⟨hmatch.2.1, hmatch.2.2⟩]
    · by_cases hdd : d.desc = desc
      · rw [if_pos hdd]
        by_cases hrange : d.low = low ∧ d.high = high
        · rw [if_pos hrange]
        · rw [if_neg hrange]
          exact ih _ ⟨d0, hmem, hmatch⟩
      · rw [if_neg hdd]
        exact ih _ ⟨d0, hmem, hmatch⟩

/-- C4: registering a `(template, low, high)` triple identical to an
already-registered descriptor fails with the duplicate-registration
error and changes nothing: the wallet (descriptors, addresses, txos and
key cache alike) and the dongle call log come back exactly as they
were, and no key is derived. -/
theorem c4_duplicate_rejected (oracle : DerivPath → PubKey) (w : Wallet)
    (desc : MsDescriptor) (low high : Nat) (log : DongleLog)
    (h : ∃ d ∈ w.descriptors,
      d.desc = desc ∧ d.low = low ∧ d.high = high) :
    addDescriptor oracle w desc low high log =
      (Except.error WalletErr.duplicateDescriptor, w, log) := by
  simp only [addDescriptor, scanDescriptors_dup desc low high _ [] h]

/-- C4 witness: a concrete duplicate registration is rejected with the
wallet and dongle log unchanged. -/
theorem c4_duplicate_rejected_witness :
    addDescriptor (fun p => p) ⟨0, [⟨⟨[3]⟩, 0, 5, 0⟩], [], [], []⟩
        ⟨[3]⟩ 0 5 ⟨[]⟩ =
      (Except.error WalletErr.duplicateDescriptor,
        ⟨0, [⟨⟨[3]⟩, 0, 5, 0⟩], [], [], []⟩, ⟨[]⟩) :=
  c4_duplicate_rejected (fun p => p) ⟨0, [⟨⟨[3]⟩, 0, 5, 0⟩], [], [], []⟩
    ⟨[3]⟩ 0 5 ⟨[]⟩ (by decide)

-- Claim C8

theorem msText_replicate_zero (n : Nat) :
    (msText ⟨List.replicate n 0⟩).length = n := by
  have h0 : encComp 0 = [47] := by
    simp [encComp, natDigits10, digits10Fuel]
  simp only [msText, List.map_replicate, h0, List.length_flatten,
    List.sum_replicate, smul_eq_mul, mul_one, List.length_cons,
    List.length_nil]
  omega

/-- C8 counterexample: a policy template whose canonical text is 65537
bytes long is ENCODED successfully — the writer performs no bound check
and emits the 4-byte length prefix followed by the full 65537 payload
bytes, rather than failing before writing any payload. -/
theorem c8_counterexample :
    65536 < (msText ⟨List.replicate 65537 0⟩).length ∧
    (writeMsDesc ⟨List.replicate 65537 0⟩).length =
      4 + (msText ⟨List.replicate 65537 0⟩).length := by
  constructor
  · rw [msText_replicate_zero]
    omega
  · rw [writeMsDesc, List.length_append, writeU32_length]

/-- C8 (amended): encoding a policy template performs no bound check
and cannot fail: for every template it writes the 32-bit length of the
canonical text followed by the text itself, even beyond 65,536 bytes.
The 65,536-byte bound is enforced on decode only: decoding the writer's
own output for an oversized template fails with the bound error (naming
the bound and the observed size) before the payload allocation (the
trace is untouched) and before reading any payload byte. -/
theorem c8_encode_unchecked (d : MsDescriptor) (rest tr : List Nat)
    (hbig : MAX_DESCRIPTOR_LEN < (msText d).length)
    (h32 : (msText d).length < 4294967296) :
    writeMsDesc d = writeU32 (msText d).length ++ msText d ∧
    readMsDesc ⟨writeMsDesc d ++ rest, tr⟩ =
      (Except.error
        (DecErr.bound (msText d).length MAX_DESCRIPTOR_LEN),
       ⟨msText d ++ rest, tr⟩) := by
  refine ⟨rfl, ?_⟩
  simp only [writeMsDesc, readMsDesc, List.append_assoc,
    writeU32_readU32 _ h32]
  rw [if_pos hbig]

/-- C8 witness: the amended statement at the concrete 65537-byte
template. -/
theorem c8_encode_unchecked_witness :
    writeMsDesc ⟨List.replicate 65537 0⟩ =
      writeU32 (msText ⟨List.replicate 65537 0⟩).length ++
        msText ⟨List.replicate 65537 0⟩ ∧
    readMsDesc ⟨writeMsDesc ⟨List.replicate 65537 0⟩ ++ [9], [7]⟩ =
      (Except.error
        (DecErr.bound (msText ⟨List.replicate 65537 0⟩).length
          MAX_DESCRIPTOR_LEN),
       ⟨msText ⟨List.replicate 65537 0⟩ ++ [9], [7]⟩) :=
  c8_encode_unchecked ⟨List.replicate 65537 0⟩ [9] [7]
    (by rw [msText_replicate_zero]; simp only [MAX_DESCRIPTOR_LEN]; omega)
    (by rw [msText_replicate_zero]; omega)

-- Claim C10

/-- C10: `add_address` is total exactly under the precondition that
`descriptor_idx` names an existing descriptor: the embedding returns
`none` (the marker for the Rust out-of-bounds indexing panic on
`self.descriptors[descriptor_idx]`) precisely when `descriptor_idx` is
at or beyond the number of registered descriptors, and produces a
result otherwise — there is no error-value return path. -/
theorem c10_add_address_partiality (oracle : DerivPath → PubKey)
    (w : Wallet) (log : DongleLog) (idx : Nat) (wix : Option Nat)
    (time notes : List Nat) :
    addAddress oracle w log idx wix time notes = none ↔
      w.descriptors.length ≤ idx := by
  constructor
  · intro h
    by_contra hge
    have hlt : idx < w.descriptors.length := Nat.lt_of_not_le hge
    obtain ⟨d, hd⟩ : ∃ d, w.descriptors[idx]? = some d := by
      rw [List.getElem?_eq_getElem hlt]
      exact ⟨_, rfl⟩
    simp [addAddress, hd] at h
  · intro h
    simp only [addAddress, List.getElem?_eq_none h]

-- Claim C5

/-- Index `i` is already covered for template `desc`: some registered
descriptor with the identical template has `i` in its declared range. -/
def coveredBy (descs : List WDescriptor) (desc : MsDescriptor) (i : Nat) :
    Prop :=
  ∃ d ∈ descs, d.desc = desc ∧ d.low ≤ i ∧ i < d.high

instance (descs : List WDescriptor) (desc : MsDescriptor) (i : Nat) :
    Decidable (coveredBy descs desc i) := by
  unfold coveredBy
  infer_instance

theorem scanDescriptors_ok (desc : MsDescriptor) (low high : Nat)
    (descs : List WDescriptor) (acc : List Nat)
    (h : ¬ ∃ d ∈ descs, d.desc = desc ∧ d.low = low ∧ d.high = high) :
    ∃ ex, scanDescriptors desc low high descs acc = Except.ok ex ∧
      ∀ i, i ∈ ex ↔ i ∈ acc ∨ coveredBy descs desc i := by
  induction descs generalizing acc with
  | nil =>
    refine ⟨acc, rfl, ?_⟩
    intro i
    simp [coveredBy]
  | cons d rest ih =>
    have hnd : ¬ (d.desc = desc ∧ d.low = low ∧ d.high = high) := by
      intro hc
      exact h ⟨d, by simp, hc⟩
    have hrest : ¬ ∃ d0 ∈ rest, d0.desc = desc ∧ d0.low = low ∧
        d0.high = high := by
      intro ⟨d0, hd0, hc⟩
      exact h ⟨d0, by simp [hd0], hc⟩
    simp only [scanDescriptors]
    by_cases hdd : d.desc = desc
    · have hrange : ¬ (d.low = low ∧ d.high = high) := by
        intro hc
        exact hnd ⟨hdd, hc⟩
      rw [if_pos hdd, if_neg hrange]
      obtain ⟨ex, hex, hmem⟩ :=
        ih (acc ++ List.range' d.low (d.high - d.low)) hrest
      refine ⟨ex, hex, ?_⟩
      intro i
      rw [hmem i]
      simp only [List.mem_append, List.mem_range'_1, coveredBy,
        List.mem_cons]
      constructor
      · rintro ((hi | hi) | ⟨d0, hd0, hc⟩)
        · exact Or.inl hi
        · exact Or.inr ⟨d, Or.inl rfl, hdd, by omega⟩
        · exact Or.inr ⟨d0, Or.inr hd0, hc⟩
      · rintro (hi | ⟨d0, (rfl | hd0), hc⟩)
        · exact Or.inl (Or.inl hi)
        · exact Or.inl (Or.inr (by omega))
        · exact Or.inr ⟨d0, hd0, hc⟩
    · rw [if_neg hdd]
      obtain ⟨ex, hex, hmem⟩ := ih acc hrest
      refine ⟨ex, hex, ?_⟩
      intro i
      rw [hmem i]
      simp only [coveredBy, List.mem_cons]
      constructor
      · rintro (hi | ⟨d0, hd0, hc⟩)
        · exact Or.inl hi
        · exact Or.inr ⟨d0, Or.inr hd0, hc⟩
      · rintro (hi | ⟨d0, (rfl | hd0), hc⟩)
        · exact Or.inl hi
        · exact absurd hc.1 hdd
        · exact Or.inr ⟨d0, hd0, hc⟩

theorem deriveLoop_count (oracle : DerivPath → PubKey)
    (desc : MsDescriptor) (ex : List Nat) (is : List Nat) (added : Nat)
    (cache : KeyCache) (log : DongleLog) :
    (deriveLoop oracle desc ex is added cache log).1 =
      added + (is.filter (fun i => decide (i ∉ ex))).length := by
  induction is generalizing added cache log with
  | nil => simp [deriveLoop]
  | cons i is ih =>
    by_cases hmem : i ∈ ex
    · simp only [deriveLoop, if_pos hmem, ih]
      simp [hmem]
    · simp only [deriveLoop, if_neg hmem, ih]
      simp [hmem]
      omega

theorem card_Ico_filter (P : Nat → Prop) [DecidablePred P]
    (low high : Nat) :
    ((Finset.Ico low high).filter P).card =
      ((List.range' low (high - low)).filter
        (fun i => decide (P i))).length := by
  rw [Nat.Ico_eq_range']
  rfl

/-- C5: a successful `add_descriptor(template, low, high)` returns
exactly the number of indices of `[low, high)` not contained in the
union of the `[low, high)` ranges of the already-registered descriptors
with the identical template. -/
theorem c5_new_key_count (oracle : DerivPath → PubKey) (w : Wallet)
    (desc : MsDescriptor) (low high : Nat) (log : DongleLog)
    (h : ¬ ∃ d ∈ w.descriptors,
      d.desc = desc ∧ d.low = low ∧ d.high = high) :
    (addDescriptor oracle w desc low high log).1 =
      Except.ok (((Finset.Ico low high).filter
        (fun i => ¬ coveredBy w.descriptors desc i)).card) := by
  obtain ⟨ex, hex, hmem⟩ := scanDescriptors_ok desc low high
    w.descriptors [] h
  simp only [addDescriptor, hex]
  rw [deriveLoop_count, card_Ico_filter, Nat.zero_add]
  congr 1
  congr 1
  apply List.filter_congr
  intro i hi
  simp only [decide_eq_decide]
  constructor
  · intro hni
    intro hcov
    exact hni ((hmem i).mpr (Or.inr hcov))
  · intro hncov hiex
    rcases (hmem i).mp hiex with hin | hcov
    · simp at hin
    · exact hncov hcov

/-- C5 witness: registering the same template over `[5, 10)` after
`[0, 7)` derives exactly 3 new keys (indices 7, 8, 9). -/
theorem c5_new_key_count_witness :
    (addDescriptor (fun p => p) ⟨0, [⟨⟨[4]⟩, 0, 7, 0⟩], [], [], []⟩
        ⟨[4]⟩ 5 10 ⟨[]⟩).1 =
      Except.ok (((Finset.Ico 5 10).filter
        (fun i => ¬ coveredBy [⟨⟨[4]⟩, 0, 7, 0⟩] ⟨[4]⟩ i)).card) :=
  c5_new_key_count (fun p => p) ⟨0, [⟨⟨[4]⟩, 0, 7, 0⟩], [], [], []⟩
    ⟨[4]⟩ 5 10 ⟨[]⟩ (by decide)

-- Reachable wallet states and the memoization invariant

/-- Wallet states (with their dongle call log) reachable from the empty
wallet by the public mutating operations; a scan uses an index built
from the current wallet, as in the repository's rescan flow. -/
inductive Reachable (oracle : DerivPath → PubKey) :
    Wallet → DongleLog → Prop where
  | empty : Reachable oracle Wallet.new ⟨[]⟩
  | addDesc {w log desc low high r w2 log2} :
      Reachable oracle w log →
      addDescriptor oracle w desc low high log = (r, w2, log2) →
      Reachable oracle w2 log2
  | addAddr {w log idx wix time notes a w2 log2} :
      Reachable oracle w log →
      addAddress oracle w log idx wix time notes = some (a, w2, log2) →
      Reachable oracle w2 log2
  | buildIndex {w log c w2 log2} :
      Reachable oracle w log →
      scriptPubkeyCache oracle w log = (c, w2, log2) →
      Reachable oracle w2 log2
  | scan {w log c w1 log1 blk h w2 rcv spn} :
      Reachable oracle w log →
      scriptPubkeyCache oracle w log = (c, w1, log1) →
      scanBlock w1 blk h c = (w2, rcv, spn) →
      Reachable oracle w2 log1

/-- The memoization invariant: no derivation path was ever requested
from the authority twice, and every requested path is cached. -/
def CacheCalls (cache : KeyCache) (log : DongleLog) : Prop :=
  log.calls.Nodup ∧ ∀ p ∈ log.calls, p ∈ cache.map Prod.fst

theorem gwpk_inv (oracle : DerivPath → PubKey) (path : DerivPath)
    (cache : KeyCache) (log : DongleLog) (h : CacheCalls cache log) :
    CacheCalls (getWalletPublicKey oracle path cache log).2.1
      (getWalletPublicKey oracle path cache log).2.2 := by
  obtain ⟨hnd, hsub⟩ := h
  simp only [getWalletPublicKey]
  cases hf : cache.find? (fun p => decide (p.1 = path)) with
  | some q => exact ⟨hnd, hsub⟩
  | none =>
    have hpath : path ∉ cache.map Prod.fst := by
      intro hmem
      obtain ⟨q, hq, hq1⟩ := List.mem_map.mp hmem
      have := List.find?_eq_none.mp hf q hq
      simp [hq1] at this
    have hnotcall : path ∉ log.calls := fun hc => hpath (hsub path hc)
    refine ⟨?_, ?_⟩
    · simpa [List.nodup_append] using ⟨hnd, hnotcall⟩
    · intro q hq
      rw [insertKV_notMem cache path (oracle path) hpath]
      simp only [List.map_append, List.map_cons, List.map_nil,
        List.mem_append, List.mem_singleton]
      rcases List.mem_append.mp hq with hq | hq
      · exact Or.inl (hsub q hq)
      · simp only [List.mem_singleton] at hq
        exact Or.inr hq

theorem cacheKey_inv (oracle : DerivPath → PubKey) (cache : KeyCache)
    (desc : MsDescriptor) (index : Nat) (log : DongleLog)
    (h : CacheCalls cache log) :
    CacheCalls (cacheKey oracle cache desc index log).2.1
      (cacheKey oracle cache desc index log).2.2 :=
  gwpk_inv oracle (derivedPath desc index) cache log h

theorem deriveLoop_inv (oracle : DerivPath → PubKey)
    (desc : MsDescriptor) (ex : List Nat) (is : List Nat) (added : Nat)
    (cache : KeyCache) (log : DongleLog) (h : CacheCalls cache log) :
    CacheCalls (deriveLoop oracle desc ex is added cache log).2.1
      (deriveLoop oracle desc ex is added cache log).2.2 := by
  induction is generalizing added cache log with
  | nil => exact h
  | cons i is ih =>
    by_cases hmem : i ∈ ex
    · simp only [deriveLoop, if_pos hmem]
      exact ih added cache log h
    · simp only [deriveLoop, if_neg hmem]
      exact ih (added + 1) _ _ (cacheKey_inv oracle cache desc i log h)

theorem buildSpkRange_inv (oracle : DerivPath → PubKey)
    (desc : MsDescriptor) (didx : Nat) (is : List Nat)
    (m : List (Script × Nat × Nat)) (cache : KeyCache) (log : DongleLog)
    (h : CacheCalls cache log) :
    CacheCalls (buildSpkRange oracle desc didx is m cache log).2.1
      (buildSpkRange oracle desc didx is m cache log).2.2 := by
  induction is generalizing m cache log with
  | nil => exact h
  | cons i is ih =>
    simp only [buildSpkRange]
    exact ih _ _ _ (cacheKey_inv oracle cache desc i log h)

theorem buildSpkAll_inv (oracle : DerivPath → PubKey)
    (descs : List WDescriptor) (didx : Nat)
    (m : List (Script × Nat × Nat)) (cache : KeyCache) (log : DongleLog)
    (h : CacheCalls cache log) :
    CacheCalls (buildSpkAll oracle descs didx m cache log).2.1
      (buildSpkAll oracle descs didx m cache log).2.2 := by
  induction descs generalizing didx m cache log with
  | nil => exact h
  | cons d ds ih =>
    simp only [buildSpkAll]
    exact ih _ _ _ _ (buildSpkRange_inv oracle d.desc didx _ m cache log h)

theorem reachable_cacheCalls (oracle : DerivPath → PubKey) (w : Wallet)
    (log : DongleLog) (h : Reachable oracle w log) :
    CacheCalls w.key_cache log := by
  induction h with
  | empty => exact ⟨List.nodup_nil, by simp⟩
  | addDesc hreach hop ih =>
    rename_i w0 log0 desc low high r w2 log2
    rw [addDescriptor] at hop
    cases hscan : scanDescriptors desc low high w0.descriptors [] with
    | error e =>
      rw [hscan] at hop
      simp only [Prod.mk.injEq] at hop
      rw [← hop.2.1, ← hop.2.2]
      exact ih
    | ok ex =>
      rw [hscan] at hop
      simp only [Prod.mk.injEq] at hop
      have hinv := deriveLoop_inv oracle desc ex
        (List.range' low (high - low)) 0 w0.key_cache log0 ih
      rw [← hop.2.1, ← hop.2.2]
      exact hinv
  | addAddr hreach hop ih =>
    rename_i w0 log0 idx wix time notes a w2 log2
    rw [addAddress] at hop
    cases hget : w0.descriptors[idx]? with
    | none => rw [hget] at hop; cases hop
    | some d =>
      rw [hget] at hop
      simp only [Option.some.injEq, Prod.mk.injEq] at hop
      have hinv := cacheKey_inv oracle w0.key_cache d.desc
        (wix.getD d.next_idx) log0 ih
      rw [← hop.2.1, ← hop.2.2]
      exact hinv
  | buildIndex hreach hop ih =>
    rename_i w0 log0 c w2 log2
    rw [scriptPubkeyCache] at hop
    simp only [Prod.mk.injEq] at hop
    have hinv := buildSpkAll_inv oracle w0.descriptors 0 [] w0.key_cache
      log0 ih
    rw [← hop.2.1, ← hop.2.2]
    exact hinv
  | scan hreach hcache hscan ih =>
    rename_i w0 log0 c w1 log1 blk hgt w2 rcv spn
    rw [scriptPubkeyCache] at hcache
    simp only [Prod.mk.injEq] at hcache
    have hinv := buildSpkAll_inv oracle w0.descriptors 0 [] w0.key_cache
      log0 ih
    rw [scanBlock] at hscan
    simp only [Prod.mk.injEq] at hscan
    rw [← hscan.1, ← hcache.2.2]
    rw [← hcache.2.1]
    exact hinv

/-- C9: for a given wallet lifetime (any state reachable by the public
operations), the log of external authority requests is duplicate-free —
each distinct derivation path was requested at most once, no matter how
many operations needed the key; and at the cache level, deriving the
same path twice starting from a fresh cache issues exactly one
authority call. -/
theorem c9_memoization (oracle : DerivPath → PubKey) :
    (∀ w log, Reachable oracle w log → log.calls.Nodup) ∧
    (∀ p : DerivPath,
      ((getWalletPublicKey oracle p
          (getWalletPublicKey oracle p [] ⟨[]⟩).2.1
          (getWalletPublicKey oracle p [] ⟨[]⟩).2.2).2.2).calls = [p]) := by
  constructor
  · intro w log h
    exact (reachable_cacheCalls oracle w log h).1
  · intro p
    simp [getWalletPublicKey, insertKV]

/-- C9 witness: the duplicate-free call log at a concrete reachable
state, and the derive-twice instance at a concrete path. -/
theorem c9_memoization_witness :
    (⟨[]⟩ : DongleLog).calls.Nodup ∧
    ((getWalletPublicKey (fun p => p) [0]
        (getWalletPublicKey (fun p => p) [0] [] ⟨[]⟩).2.1
        (getWalletPublicKey (fun p => p) [0] [] ⟨[]⟩).2.2).2.2).calls =
      [[0]] :=
  ⟨(c9_memoization (fun p => p)).1 Wallet.new ⟨[]⟩ Reachable.empty,
   (c9_memoization (fun p => p)).2 [0]⟩

-- Claim C7

/-- A script-index entry points at an existing descriptor and a wildcard
index within its declared range. -/
def SpkP (descs : List WDescriptor) (e : Script × Nat × Nat) : Prop :=
  ∃ d, descs[e.2.1]? = some d ∧ d.low ≤ e.2.2 ∧ e.2.2 < d.high

/-- A txo points at an existing descriptor and a wildcard index within
its declared range. -/
def TxoP (descs : List WDescriptor) (t : Txo) : Prop :=
  ∃ d, descs[t.descriptor_idx]? = some d ∧
    d.low ≤ t.wildcard_idx ∧ t.wildcard_idx < d.high

theorem mem_insertKV [DecidableEq κ] (l : List (κ × ν)) (k : κ) (v : ν)
    (e : κ × ν) (he : e ∈ insertKV l k v) : e ∈ l ∨ e.2 = v := by
  unfold insertKV at he
  split at he
  · obtain ⟨p, hp, hpe⟩ := List.mem_map.mp he
    by_cases hk : p.1 = k
    · rw [if_pos hk] at hpe
      right
      rw [← hpe]
    · rw [if_neg hk] at hpe
      left
      rw [← hpe]
      exact hp
  · rcases List.mem_append.mp he with h | h
    · exact Or.inl h
    · simp only [List.mem_singleton] at h
      right
      rw [h]

theorem spkLookup_mem (c : SpkCache) (spk : Script) (di : Nat × Nat)
    (h : spkLookup c spk = some di) : ∃ sc, (sc, di) ∈ c.spks := by
  unfold spkLookup at h
  cases hf : c.spks.find? (fun p => decide (p.1 = spk)) with
  | none => rw [hf] at h; cases h
  | some p =>
    rw [hf] at h
    simp only [Option.map_some', Option.some.injEq] at h
    refine ⟨p.1, ?_⟩
    rw [← h]
    exact List.mem_of_find?_eq_some hf

theorem lookupKV_mem [DecidableEq κ] (l : List (κ × ν)) (k : κ) (v : ν)
    (h : lookupKV l k = some v) : (k, v) ∈ l := by
  unfold lookupKV at h
  cases hf : l.find? (fun p => decide (p.1 = k)) with
  | none => rw [hf] at h; cases h
  | some p =>
    rw [hf] at h
    simp only [Option.map_some', Option.some.injEq] at h
    have hmem := List.mem_of_find?_eq_some hf
    have hkey := List.find?_some hf
    simp only [decide_eq_true_eq] at hkey
    rw [← hkey, ← h]
    exact hmem

theorem buildSpkRange_range (oracle : DerivPath → PubKey)
    (desc : MsDescriptor) (didx : Nat) (descs : List WDescriptor)
    (d : WDescriptor) (hd : descs[didx]? = some d) (is : List Nat)
    (his : ∀ i ∈ is, d.low ≤ i ∧ i < d.high)
    (m : List (Script × Nat × Nat)) (cache : KeyCache) (log : DongleLog)
    (hm : ∀ e ∈ m, SpkP descs e) :
    ∀ e ∈ (buildSpkRange oracle desc didx is m cache log).1,
      SpkP descs e := by
  induction is generalizing m cache log with
  | nil => exact hm
  | cons i is ih =>
    simp only [buildSpkRange]
    refine ih (fun x hx => his x (by simp [hx])) _ _ _ ?_
    intro e he
    rcases mem_insertKV _ _ _ e he with hel | hev
    · exact hm e hel
    · exact ⟨d, by rw [hev]; exact hd,
        by rw [hev]; exact (his i (by simp)).1,
        by rw [hev]; exact (his i (by simp)).2⟩

theorem buildSpkAll_range (oracle : DerivPath → PubKey)
    (descs : List WDescriptor) :
    ∀ (ds : List WDescriptor) (didx : Nat)
      (m : List (Script × Nat × Nat)) (cache : KeyCache) (log : DongleLog),
      (∀ j : Nat, ds[j]? = descs[didx + j]?) →
      (∀ e ∈ m, SpkP descs e) →
      ∀ e ∈ (buildSpkAll oracle ds didx m cache log).1, SpkP descs e := by
  intro ds
  induction ds with
  | nil => intro didx m cache log _ hm; exact hm
  | cons d ds ih =>
    intro didx m cache log halign hm
    simp only [buildSpkAll]
    refine ih (didx + 1) _ _ _ (fun j => ?_) ?_
    · have := halign (j + 1)
      simpa [Nat.add_assoc, Nat.add_comm 1 j] using this
    · have hd : descs[didx]? = some d := by
        have h0 := halign 0
        simp only [List.getElem?_cons_zero, Nat.add_zero] at h0
        exact h0.symm
      refine buildSpkRange_range oracle d.desc didx descs d hd _ ?_
        m cache log hm
      intro i hi
      rw [List.mem_range'_1] at hi
      omega

theorem scanOutputs_range (tx : Transaction) (c : SpkCache)
    (height : Nat) (descs : List WDescriptor)
    (hc : ∀ e ∈ c.spks, SpkP descs e) :
    ∀ (os : List TxOut) (vout : Nat) (txos : List (OutPoint × Txo))
      (received : List OutPoint),
      (∀ p ∈ txos, TxoP descs p.2) →
      ∀ p ∈ (scanOutputs tx c height vout os txos received).1,
        TxoP descs p.2 := by
  intro os
  induction os with
  | nil => intro vout txos received ht; exact ht
  | cons o os ih =>
    intro vout txos received ht
    simp only [scanOutputs]
    cases hl : spkLookup c o.script_pubkey with
    | none => exact ih (vout + 1) txos received ht
    | some di =>
      refine ih (vout + 1) _ _ ?_
      intro p hp
      rcases mem_insertKV _ _ _ p hp with hel | hev
      · exact ht p hel
      · obtain ⟨sc, hsc⟩ := spkLookup_mem c _ di hl
        obtain ⟨d, hd, hlo, hhi⟩ := hc (sc, di) hsc
        exact ⟨d, by rw [hev]; exact hd, by rw [hev]; exact hlo,
          by rw [hev]; exact hhi⟩

theorem scanInputs_range (tx : Transaction) (height : Nat)
    (descs : List WDescriptor) :
    ∀ (is : List TxIn) (txos : List (OutPoint × Txo))
      (spent : List OutPoint),
      (∀ p ∈ txos, TxoP descs p.2) →
      ∀ p ∈ (scanInputs tx height is txos spent).1, TxoP descs p.2 := by
  intro is
  induction is with
  | nil => intro txos spent ht; exact ht
  | cons i is ih =>
    intro txos spent ht
    simp only [scanInputs]
    cases hl : lookupKV txos i.previous_output with
    | none => exact ih txos spent ht
    | some t =>
      refine ih _ _ ?_
      intro p hp
      rcases mem_insertKV _ _ _ p hp with hel | hev
      · exact ht p hel
      · have hmem := lookupKV_mem _ _ _ hl
        obtain ⟨d, hd, hlo, hhi⟩ := ht (i.previous_output, t) hmem
        exact ⟨d, by rw [hev]; exact hd, by rw [hev]; exact hlo,
          by rw [hev]; exact hhi⟩

theorem scanTxs_range (c : SpkCache) (height : Nat)
    (descs : List WDescriptor) (hc : ∀ e ∈ c.spks, SpkP descs e) :
    ∀ (txs : List Transaction) (txos : List (OutPoint × Txo))
      (received spent : List OutPoint),
      (∀ p ∈ txos, TxoP descs p.2) →
      ∀ p ∈ (scanTxs c height txs txos received spent).1,
        TxoP descs p.2 := by
  intro txs
  induction txs with
  | nil => intro txos received spent ht; exact ht
  | cons tx txs ih =>
    intro txos received spent ht
    simp only [scanTxs]
    refine ih _ _ _ ?_
    exact scanInputs_range tx height descs tx.input _ _
      (scanOutputs_range tx c height descs hc tx.output 0 txos received ht)

theorem txoP_append (descs : List WDescriptor) (d2 : WDescriptor)
    (t : Txo) (h : TxoP descs t) : TxoP (descs ++ [d2]) t := by
  obtain ⟨d, hd, hlo, hhi⟩ := h
  refine ⟨d, ?_, hlo, hhi⟩
  have hlt : t.descriptor_idx < descs.length := by
    by_contra hge
    rw [List.getElem?_eq_none (Nat.le_of_not_lt hge)] at hd
    cases hd
  rw [List.getElem?_append_left hlt]
  exact hd

theorem txoP_set_next (descs : List WDescriptor) (idx : Nat)
    (d : WDescriptor) (n : Nat) (t : Txo)
    (hget : descs[idx]? = some d) (h : TxoP descs t) :
    TxoP (descs.set idx { d with next_idx := n }) t := by
  obtain ⟨d0, hd0, hlo, hhi⟩ := h
  have hlt : idx < descs.length := by
    by_contra hge
    rw [List.getElem?_eq_none (Nat.le_of_not_lt hge)] at hget
    cases hget
  by_cases heq : t.descriptor_idx = idx
  · subst heq
    rw [hget] at hd0
    injection hd0 with hdd
    subst hdd
    exact ⟨{ d with next_idx := n },
      List.getElem?_set_eq_of_lt _ hlt, hlo, hhi⟩
  · refine ⟨d0, ?_, hlo, hhi⟩
    rw [List.getElem?_set_ne (fun hc => heq hc.symm)]
    exact hd0

theorem reachable_txo_in_range (oracle : DerivPath → PubKey) (w : Wallet)
    (log : DongleLog) (h : Reachable oracle w log) :
    ∀ p ∈ w.txos, TxoP w.descriptors p.2 := by
  induction h with
  | empty => simp [Wallet.new]
  | addDesc hreach hop ih =>
    rename_i w0 log0 desc low high r w2 log2
    rw [addDescriptor] at hop
    cases hscan : scanDescriptors desc low high w0.descriptors [] with
    | error e =>
      rw [hscan] at hop
      simp only [Prod.mk.injEq] at hop
      rw [← hop.2.1]
      exact ih
    | ok ex =>
      rw [hscan] at hop
      simp only [Prod.mk.injEq] at hop
      rw [← hop.2.1]
      intro p hp
      exact txoP_append _ _ _ (ih p hp)
  | addAddr hreach hop ih =>
    rename_i w0 log0 idx wix time notes a w2 log2
    rw [addAddress] at hop
    cases hget : w0.descriptors[idx]? with
    | none => rw [hget] at hop; cases hop
    | some d =>
      rw [hget] at hop
      simp only [Option.some.injEq, Prod.mk.injEq] at hop
      rw [← hop.2.1]
      intro p hp
      exact txoP_set_next _ _ _ _ _ hget (ih p hp)
  | buildIndex hreach hop ih =>
    rename_i w0 log0 c w2 log2
    rw [scriptPubkeyCache] at hop
    simp only [Prod.mk.injEq] at hop
    rw [← hop.2.1]
    exact ih
  | scan hreach hcache hscan ih =>
    rename_i w0 log0 c w1 log1 blk hgt w2 rcv spn
    rw [scriptPubkeyCache] at hcache
    simp only [Prod.mk.injEq] at hcache
    rw [scanBlock] at hscan
    simp only [Prod.mk.injEq] at hscan
    rw [← hscan.1]
    have hc : ∀ e ∈ c.spks, SpkP w0.descriptors e := by
      intro e he
      refine buildSpkAll_range oracle w0.descriptors w0.descriptors 0 []
        w0.key_cache log0 (fun j => by simp) (by simp) e ?_
      rw [← hcache.1] at he
      exact he
    have hdescs1 : w1.descriptors = w0.descriptors := by
      rw [← hcache.2.1]
    have htxos1 : w1.txos = w0.txos := by
      rw [← hcache.2.1]
    intro p hp
    simp only [hdescs1]
    refine scanTxs_range c hgt w0.descriptors hc blk.txdata w1.txos
      [] [] ?_ p ?_
    · rw [htxos1]
      exact ih
    · exact hp

/-- C7 counterexample: from the empty wallet, register a descriptor
over `[0, 1)` and then label an address with explicit wildcard index 5:
the resulting (reachable) wallet holds an Address whose wildcard index
5 lies outside its descriptor's declared range `[0, 1)` —
`add_address` performs no range check. -/
theorem c7_counterexample :
    ((addAddress (fun p => p)
        (addDescriptor (fun p => p) Wallet.new ⟨[0]⟩ 0 1 ⟨[]⟩).2.1
        (addDescriptor (fun p => p) Wallet.new ⟨[0]⟩ 0 1 ⟨[]⟩).2.2
        0 (some 5) [] []).map
      (fun r => (r.2.1.addresses.map (fun q => q.2.wildcard_idx),
        r.2.1.descriptors.map (fun d => (d.low, d.high)))) =
      some ([5], [(0, 1)])) ∧ ¬ (5 < 1) := by
  decide

/-- C7 (amended): in every wallet state reachable from the empty wallet
by the public operations (with each scan driven by an index built from
the current wallet), every tracked Txo refers to an existing descriptor
and its wildcard index lies within that descriptor's declared
`[low, high)`.  Addresses carry no such guarantee: `add_address`
performs no range check, so a labeled Address may record any wildcard
index (see the counterexample). -/
theorem c7_txo_wildcard_in_range (oracle : DerivPath → PubKey)
    (w : Wallet) (log : DongleLog) (h : Reachable oracle w log) :
    ∀ p ∈ w.txos, ∃ d, w.descriptors[p.2.descriptor_idx]? = some d ∧
      d.low ≤ p.2.wildcard_idx ∧ p.2.wildcard_idx < d.high :=
  reachable_txo_in_range oracle w log h

/-- A concrete run used to witness the amended C7 invariant: register a
descriptor over `[0, 1)`, build the index, and scan one block whose
single output pays the tracked script. -/
def demoOracle : DerivPath → PubKey := fun p => p

/-- The wallet after the demonstration registration. -/
def demoW1 : Wallet :=
  (addDescriptor demoOracle Wallet.new ⟨[0]⟩ 0 1 ⟨[]⟩).2.1

/-- The dongle log after the demonstration registration. -/
def demoLog1 : DongleLog :=
  (addDescriptor demoOracle Wallet.new ⟨[0]⟩ 0 1 ⟨[]⟩).2.2

/-- The demonstration index build. -/
def demoCacheR : SpkCache × Wallet × DongleLog :=
  scriptPubkeyCache demoOracle demoW1 demoLog1

/-- The demonstration block: one transaction with one output paying the
tracked script. -/
def demoBlock : Block :=
  ⟨[⟨List.replicate 32 1, [],
    [⟨118 :: 169 :: [0, 2147483648] ++ [136, 172], 5000⟩]⟩]⟩

/-- The wallet after scanning the demonstration block. -/
def demoW2 : Wallet :=
  (scanBlock demoCacheR.2.1 demoBlock 100 demoCacheR.1).1

/-- C7 witness: the amended invariant applied at a concrete reachable
state holding one scanned txo: its wildcard index 0 lies inside its
descriptor's range `[0, 1)`. -/
theorem c7_txo_wildcard_in_range_witness :
    ∃ d, demoW2.descriptors[(0 : Nat)]? = some d ∧
      d.low ≤ 0 ∧ 0 < d.high := by
  have h1 : Reachable demoOracle demoW1 demoLog1 :=
    Reachable.addDesc Reachable.empty rfl
  have h2 : Reachable demoOracle demoW2 demoCacheR.2.2 :=
    Reachable.scan h1 rfl rfl
  exact c7_txo_wildcard_in_range demoOracle demoW2 demoCacheR.2.2 h2
    (⟨List.replicate 32 1, 0⟩,
      ⟨0, 0, ⟨List.replicate 32 1, 0⟩, 5000, 100, none, none⟩)
    (by decide)

-- Claim C3

/-- C3: for every representable Wallet value (collections within the
element bound, map keys distinct, strings/scripts/templates within
their byte bounds, integers within their widths), encoding succeeds and
decoding the produced bytes yields the original wallet back, consuming
exactly those bytes: `decode(encode(w)) == w`. -/
theorem c3_wallet_roundtrip (w : Wallet) (h : walletWf w) :
    ∃ bs, writeWallet w = Except.ok bs ∧
      ∃ s2, readWallet ⟨bs, []⟩ = (Except.ok w, s2) ∧ s2.input = [] := by
  obtain ⟨bs, hw, hr⟩ := writeWallet_ok w h
  obtain ⟨tr, hread⟩ := hr [] []
  refine ⟨bs, hw, ⟨[], tr⟩, ?_, rfl⟩
  simpa using hread

/-- C3 witness: the round trip at a concrete wallet exercising every
field — a descriptor, a labeled address, a spent txo and a cached
key. -/
theorem c3_wallet_roundtrip_witness :
    ∃ bs, writeWallet ⟨7, [⟨⟨[44]⟩, 0, 2, 1⟩],
        [([118, 169], ⟨0, 1, [116], [110]⟩)],
        [(⟨List.replicate 32 170, 1⟩,
          ⟨0, 1, ⟨List.replicate 32 170, 1⟩, 5000, 100,
            some (List.replicate 32 187), some 101⟩)],
        [([2147483692], 2 :: List.replicate 32 7)]⟩ = Except.ok bs ∧
      ∃ s2, readWallet ⟨bs, []⟩ =
        (Except.ok ⟨7, [⟨⟨[44]⟩, 0, 2, 1⟩],
          [([118, 169], ⟨0, 1, [116], [110]⟩)],
          [(⟨List.replicate 32 170, 1⟩,
            ⟨0, 1, ⟨List.replicate 32 170, 1⟩, 5000, 100,
              some (List.replicate 32 187), some 101⟩)],
          [([2147483692], 2 :: List.replicate 32 7)]⟩, s2) ∧
        s2.input = [] :=
  c3_wallet_roundtrip _ (by decide)

-- Claim C6

/-- Spec-side description of one output (claim C6): "each output whose
script is in the index yields a Txo
{descriptor_idx, wildcard_idx, outpoint, value, height} inserted
(overwriting any existing entry) into the wallet's Txo map with its
outpoint added to the returned received set"; an unmatched output
changes nothing. -/
def outputStepSpec (txid : Txid) (c : SpkCache) (height : Nat)
    (st : List (OutPoint × Txo) × List OutPoint) (p : Nat × TxOut) :
    List (OutPoint × Txo) × List OutPoint :=
  match spkLookup c p.2.script_pubkey with
  | some di =>
    (insertKV st.1 ⟨txid, p.1⟩
      ⟨di.1, di.2, ⟨txid, p.1⟩, p.2.value, height, none, none⟩,
     insertSet st.2 ⟨txid, p.1⟩)
  | none => st

/-- Spec-side description of one input (claim C6): "each input whose
previous-outpoint matches a tracked Txo gets that Txo's spending txid
and spent height set with the outpoint added to the returned spent
set"; an unmatched input changes nothing. -/
def inputStepSpec (txid : Txid) (height : Nat)
    (st : List (OutPoint × Txo) × List OutPoint) (i : TxIn) :
    List (OutPoint × Txo) × List OutPoint :=
  match lookupKV st.1 i.previous_output with
  | some t =>
    (insertKV st.1 i.previous_output
      { t with spending_txid := some txid, spent_height := some height },
     insertSet st.2 i.previous_output)
  | none => st

/-- Spec-side description of one transaction (claim C6): all its
outputs are processed before its inputs. -/
def txStepSpec (c : SpkCache) (height : Nat)
    (st : List (OutPoint × Txo) × List OutPoint × List OutPoint)
    (tx : Transaction) :
    List (OutPoint × Txo) × List OutPoint × List OutPoint :=
  let o := tx.output.enum.foldl (outputStepSpec tx.txid c height)
    (st.1, st.2.1)
  let i := tx.input.foldl (inputStepSpec tx.txid height) (o.1, st.2.2)
  (i.1, o.2, i.2)

/-- Spec-side description of a block scan (claim C6): the transactions
are processed in block order, starting from the wallet's Txo map and
empty received/spent sets. -/
def scanBlockSpec (w : Wallet) (block : Block) (height : Nat)
    (c : SpkCache) : Wallet × List OutPoint × List OutPoint :=
  let r := block.txdata.foldl (txStepSpec c height) (w.txos, [], [])
  ({ w with txos := r.1 }, r.2.1, r.2.2)

theorem scanOutputs_spec (tx : Transaction) (c : SpkCache)
    (height : Nat) :
    ∀ (os : List TxOut) (vout : Nat) (txos : List (OutPoint × Txo))
      (received : List OutPoint),
      scanOutputs tx c height vout os txos received =
        (List.enumFrom vout os).foldl
          (outputStepSpec tx.txid c height) (txos, received) := by
  intro os
  induction os with
  | nil => intro vout txos received; rfl
  | cons o os ih =>
    intro vout txos received
    simp only [scanOutputs, List.enumFrom, List.foldl_cons]
    cases hl : spkLookup c o.script_pubkey with
    | none =>
      dsimp only
      have hstep : outputStepSpec tx.txid c height (txos, received)
          (vout, o) = (txos, received) := by
        simp only [outputStepSpec, hl]
      rw [hstep, ih]
    | some di =>
      dsimp only
      have hstep : outputStepSpec tx.txid c height (txos, received)
          (vout, o) =
          (insertKV txos ⟨tx.txid, vout⟩
            (Txo.new di.1 di.2 ⟨tx.txid, vout⟩ o.value height),
           insertSet received ⟨tx.txid, vout⟩) := by
        simp only [outputStepSpec, hl]
        rfl
      rw [hstep, ih]

theorem scanInputs_spec (tx : Transaction) (height : Nat) :
    ∀ (is : List TxIn) (txos : List (OutPoint × Txo))
      (spent : List OutPoint),
      scanInputs tx height is txos spent =
        is.foldl (inputStepSpec tx.txid height) (txos, spent) := by
  intro is
  induction is with
  | nil => intro txos spent; rfl
  | cons i is ih =>
    intro txos spent
    simp only [scanInputs, List.foldl_cons]
    cases hl : lookupKV txos i.previous_output with
    | none =>
      dsimp only
      have hstep : inputStepSpec tx.txid height (txos, spent) i =
          (txos, spent) := by
        simp only [inputStepSpec, hl]
      rw [hstep, ih]
    | some t =>
      dsimp only
      have hstep : inputStepSpec tx.txid height (txos, spent) i =
          (insertKV txos i.previous_output (t.setSpent tx.txid height),
           insertSet spent i.previous_output) := by
        simp only [inputStepSpec, hl]
        rfl
      rw [hstep, ih]

theorem scanTxs_spec (c : SpkCache) (height : Nat) :
    ∀ (txs : List Transaction) (txos : List (OutPoint × Txo))
      (received spent : List OutPoint),
      scanTxs c height txs txos received spent =
        txs.foldl (txStepSpec c height) (txos, received, spent) := by
  intro txs
  induction txs with
  | nil => intro txos received spent; rfl
  | cons tx txs ih =>
    intro txos received spent
    simp only [scanTxs, List.foldl_cons, ih]
    congr 1
    simp only [txStepSpec, scanOutputs_spec, scanInputs_spec, List.enum]

/-- C6: `scan_block` is exactly the claim's operational description —
transactions in block order; within each transaction all outputs first
(each matched output inserting, with overwrite, a Txo
{descriptor_idx, wildcard_idx, outpoint, value, height} and adding its
outpoint to `received`), then all inputs (each matched input setting
the tracked Txo's spending txid and spent height and adding the
outpoint to `spent`). -/
theorem c6_scan_block_spec (w : Wallet) (block : Block) (height : Nat)
    (c : SpkCache) :
    scanBlock w block height c = scanBlockSpec w block height c := by
  simp only [scanBlock, scanBlockSpec, scanTxs_spec]

end Icebox
